import Mathlib

/-!
Verification of the CYBERRAG document-intelligence core against its code.

The Python source is shallowly embedded: text is `List Char`, Python string
operations (`strip`, `split`, `join`, `replace`, `re` matching restricted to
the exact patterns the code uses on ASCII data) are translated into
executable Lean functions, and the three algorithmic components — the
deobfuscator and IOC extraction engine of `ingestion_process.py`, the
sentence/paragraph chunker of `ingestion_process.py`, and the relevance
filter `_filterresults` of `src/search.py` — become Lean definitions over
those operations.  `numpy.quantile` real arithmetic is modelled exactly over
`ℚ`; Python `int()` truncation toward zero is modelled explicitly; the
implementation-defined enumeration order of a Python `set` is modelled by an
explicit reordering parameter constrained to be a permutation.
-/

/-- Text is modelled as a list of characters. -/
abbrev Str := List Char

/-- Python whitespace for `str.strip`, `str.split()` and the regex class
`\s`, restricted to ASCII (the data processed by the pipeline). -/
def pyIsSpace (c : Char) : Bool :=
  c = ' ' || c = '\t' || c = '\n' || c = '\r' || c = '\x0b' || c = '\x0c'

/-- Python `str.strip()`: drop leading and trailing whitespace. -/
def pyStrip (s : Str) : Str :=
  ((s.dropWhile pyIsSpace).reverse.dropWhile pyIsSpace).reverse

/-- Accumulator form of Python `str.split()` (split on whitespace runs,
dropping empty pieces); `cur` holds the current word reversed. -/
def splitWsAux : Str → Str → List Str
  | [], cur => if cur = [] then [] else [cur.reverse]
  | c :: cs, cur =>
    if pyIsSpace c then
      if cur = [] then splitWsAux cs [] else cur.reverse :: splitWsAux cs []
    else
      splitWsAux cs (c :: cur)

/-- Python `str.split()` with no argument. -/
def splitWs (s : Str) : List Str := splitWsAux s []

/-- Python `" ".join(pieces)`. -/
def spaceJoin : List Str → Str
  | [] => []
  | [s] => s
  | s :: rest => s ++ ' ' :: spaceJoin rest

/-- Word count of a string, as the Python code computes it:
`len(s.split())`. -/
def wordCount (s : Str) : Nat := (splitWs s).length

/-- Index of the last newline in a character list (used for the greedy
backtracking of `\s*` in the pattern `\n\s*\n`). -/
def lastNlIdx : Str → Option Nat
  | [] => none
  | c :: cs =>
    match lastNlIdx cs with
    | some i => some (i + 1)
    | none => if c = '\n' then some 0 else none

/-- One scanning step of `re.split(r'\n\s*\n', text)`: given the characters
after a leading newline, the greedy `\s*` backtracks to the longest
whitespace prefix that is followed by a newline; since `'\n'` is itself
whitespace, that prefix ends just before the last newline of the maximal
whitespace run.  Returns how many characters `\s*\n` consumes, or `none`
if it cannot match here. -/
def matchWsNl (cs : Str) : Option Nat :=
  (lastNlIdx (cs.takeWhile pyIsSpace)).map (fun k => k + 1)

/-- Embedding of `re.split(r'\n\s*\n', text)`: scan left to right; a match can only start
at a newline character; `cur` holds the current piece reversed.  The scan is
driven by a fuel counter so that the recursion is structural (every step
consumes at least one input character, so `length + 1` fuel always
suffices; the fuel-exhausted branch is unreachable). -/
def paraSplitAux : Nat → Str → Str → List Str
  | 0, s, cur => [cur.reverse ++ s]
  | _ + 1, [], cur => [cur.reverse]
  | fuel + 1, c :: cs, cur =>
    if c = '\n' then
      match matchWsNl cs with
      | some n => cur.reverse :: paraSplitAux fuel (cs.drop n) []
      | none => paraSplitAux fuel cs (c :: cur)
    else
      paraSplitAux fuel cs (c :: cur)

/-- Embedding of `re.split(r'\n\s*\n', text)` over the whole input. -/
def pyParaSplit (s : Str) : List Str := paraSplitAux (s.length + 1) s []

/-- Embedding of `re.split(r'(?<=[.!?])\s+', para)`: `prevPunct` records whether the
character before the current scan position is one of `.`, `!`, `?`
(the lookbehind); a match consumes a maximal whitespace run.  Fuel-driven
structural recursion as in `paraSplitAux`. -/
def sentSplitAux : Nat → Bool → Str → Str → List Str
  | 0, _, s, cur => [cur.reverse ++ s]
  | _ + 1, _, [], cur => [cur.reverse]
  | fuel + 1, prevPunct, c :: cs, cur =>
    if prevPunct && pyIsSpace c then
      cur.reverse :: sentSplitAux fuel false (cs.dropWhile pyIsSpace) []
    else
      sentSplitAux fuel (c = '.' || c = '!' || c = '?') cs (c :: cur)

/-- Embedding of `re.split(r'(?<=[.!?])\s+', para)` over the whole paragraph (no
character precedes position 0, so the lookbehind starts unsatisfied). -/
def pySentSplit (s : Str) : List Str := sentSplitAux (s.length + 1) false s []

/-- The inner sentence-accumulation loop of
`chunk_text_by_sentence_and_paragraph` (ingestion_process.py, lines
121-133): greedily extend `cur` while the joined word count stays within
`maxW`, otherwise flush and restart from the candidate sentence; at the
end, flush a non-empty accumulator. -/
def procSentences (maxW : Nat) : List Str → List Str → List Str
  | [], cur => if cur = [] then [] else [pyStrip (spaceJoin cur)]
  | s :: rest, cur =>
    if wordCount (spaceJoin (cur ++ [s])) ≤ maxW then
      procSentences maxW rest (cur ++ [s])
    else
      pyStrip (spaceJoin cur) :: procSentences maxW rest [s]

/-- Embedding of `chunk_text_by_sentence_and_paragraph(text, max_chunk_size)`
(ingestion_process.py, lines 108-135). -/
def chunk_text_by_sentence_and_paragraph (text : Str) (maxW : Nat) : List Str :=
  let paragraphs := pyParaSplit (pyStrip text)
  let chunks := paragraphs.flatMap
    (fun para => procSentences maxW (pySentSplit (pyStrip para)) [])
  chunks.filter (fun c => c ≠ [])

/-- The sentence sequence obtained by splitting the input directly, exactly
as the chunker derives it: paragraph split of the stripped text, then
sentence split of each stripped paragraph. -/
def allSentences (text : Str) : List Str :=
  (pyParaSplit (pyStrip text)).flatMap (fun para => pySentSplit (pyStrip para))

/-! ### Lemmas about Python word splitting -/

theorem splitWsAux_append_space (b : Str) (xs : Str) : ∀ (cur : Str),
    splitWsAux (xs ++ ' ' :: b) cur = splitWsAux xs cur ++ splitWsAux b [] := by
  induction xs with
  | nil =>
    intro cur
    show splitWsAux (' ' :: b) cur = splitWsAux [] cur ++ splitWsAux b []
    simp only [splitWsAux]
    have hsp : pyIsSpace ' ' = true := by decide
    rw [hsp]
    by_cases hc : cur = []
    · simp [hc]
    · simp [hc]
  | cons c cs ih =>
    intro cur
    show splitWsAux (c :: (cs ++ ' ' :: b)) cur = splitWsAux (c :: cs) cur ++ splitWsAux b []
    simp only [splitWsAux]
    by_cases hsp : pyIsSpace c
    · by_cases hc : cur = [] <;> simp [hsp, hc, ih]
    · simp [hsp, ih]

theorem splitWs_append_space (a b : Str) :
    splitWs (a ++ ' ' :: b) = splitWs a ++ splitWs b :=
  splitWsAux_append_space b a []

theorem splitWsAux_all_space (ws : Str) (hws : ∀ c ∈ ws, pyIsSpace c) :
    ∀ (cur : Str), splitWsAux ws cur = if cur = [] then [] else [cur.reverse] := by
  induction ws with
  | nil => intro cur; rfl
  | cons c cs ih =>
    intro cur
    have hc : pyIsSpace c := hws c (by simp)
    have ihcs := ih (fun d hd => hws d (by simp [hd]))
    show splitWsAux (c :: cs) cur = _
    simp only [splitWsAux, hc]
    by_cases hcur : cur = [] <;> simp [hcur, ihcs]

theorem splitWsAux_append_all_space (ws : Str) (hws : ∀ c ∈ ws, pyIsSpace c)
    (xs : Str) : ∀ (cur : Str), splitWsAux (xs ++ ws) cur = splitWsAux xs cur := by
  induction xs with
  | nil =>
    intro cur
    show splitWsAux ws cur = splitWsAux [] cur
    rw [splitWsAux_all_space ws hws cur]; rfl
  | cons c cs ih =>
    intro cur
    show splitWsAux (c :: (cs ++ ws)) cur = splitWsAux (c :: cs) cur
    simp only [splitWsAux]
    by_cases hsp : pyIsSpace c
    · by_cases hc : cur = [] <;> simp [hsp, hc, ih]
    · simp [hsp, ih]

theorem splitWs_dropWhile (l : Str) :
    splitWs (l.dropWhile pyIsSpace) = splitWs l := by
  induction l with
  | nil => rfl
  | cons c cs ih =>
    by_cases hsp : pyIsSpace c
    · show splitWs ((c :: cs).dropWhile pyIsSpace) = _
      rw [List.dropWhile_cons_of_pos hsp]
      rw [ih]
      show splitWsAux cs [] = splitWsAux (c :: cs) []
      simp [splitWsAux, hsp]
    · rw [List.dropWhile_cons_of_neg hsp]

theorem splitWs_pyStrip (l : Str) : splitWs (pyStrip l) = splitWs l := by
  set m := l.dropWhile pyIsSpace with hm
  have hsplit : m.reverse.takeWhile pyIsSpace ++ m.reverse.dropWhile pyIsSpace
      = m.reverse := List.takeWhile_append_dropWhile pyIsSpace m.reverse
  have hdecomp : m = (m.reverse.dropWhile pyIsSpace).reverse
      ++ (m.reverse.takeWhile pyIsSpace).reverse := by
    calc m = m.reverse.reverse := (List.reverse_reverse m).symm
    _ = (m.reverse.takeWhile pyIsSpace ++ m.reverse.dropWhile pyIsSpace).reverse := by
          rw [hsplit]
    _ = (m.reverse.dropWhile pyIsSpace).reverse
          ++ (m.reverse.takeWhile pyIsSpace).reverse := by
          rw [List.reverse_append]
  have hws : ∀ c ∈ (m.reverse.takeWhile pyIsSpace).reverse, pyIsSpace c := by
    intro c hc
    rw [List.mem_reverse] at hc
    exact List.mem_takeWhile_imp hc
  have h1 : splitWs (pyStrip l) = splitWs m := by
    show splitWsAux ((m.reverse.dropWhile pyIsSpace).reverse) [] = splitWsAux m []
    conv_rhs => rw [hdecomp]
    rw [splitWsAux_append_all_space _ hws]
  rw [h1, hm, splitWs_dropWhile]

theorem splitWs_spaceJoin (l : List Str) :
    splitWs (spaceJoin l) = l.flatMap splitWs := by
  induction l with
  | nil => rfl
  | cons a rest ih =>
    cases rest with
    | nil => show splitWs a = splitWs a ++ [].flatMap splitWs; simp
    | cons b bs =>
      show splitWs (a ++ ' ' :: spaceJoin (b :: bs)) = _
      rw [splitWs_append_space, ih]
      simp [List.flatMap_cons]

theorem flatMap_splitWs_filter_ne_nil (l : List Str) :
    (l.filter (fun c => c ≠ [])).flatMap splitWs = l.flatMap splitWs := by
  induction l with
  | nil => rfl
  | cons a rest ih =>
    by_cases ha : a = []
    · subst ha
      rw [List.flatMap_cons]
      have h0 : splitWs ([] : Str) = [] := rfl
      rw [h0, List.nil_append, ← ih]
      congr 1
    · have hfc : List.filter (fun c => c ≠ []) (a :: rest)
          = a :: List.filter (fun c => c ≠ []) rest := by
        simp [List.filter_cons, ha]
      rw [hfc, List.flatMap_cons, List.flatMap_cons, ih]

/-! ### Structure of the chunk accumulation loop -/

theorem procSentences_flatMap (maxW : Nat) : ∀ (ss : List Str) (cur : List Str),
    (procSentences maxW ss cur).flatMap splitWs = (cur ++ ss).flatMap splitWs := by
  intro ss
  induction ss with
  | nil =>
    intro cur
    show (if cur = [] then [] else [pyStrip (spaceJoin cur)]).flatMap splitWs = _
    by_cases hc : cur = []
    · simp [hc]
    · rw [if_neg hc, List.flatMap_cons]
      rw [splitWs_pyStrip, splitWs_spaceJoin]
      simp
  | cons s rest ih =>
    intro cur
    show (if wordCount (spaceJoin (cur ++ [s])) ≤ maxW then
        procSentences maxW rest (cur ++ [s])
      else pyStrip (spaceJoin cur) :: procSentences maxW rest [s]).flatMap splitWs = _
    by_cases hw : wordCount (spaceJoin (cur ++ [s])) ≤ maxW
    · rw [if_pos hw, ih]
      simp
    · rw [if_neg hw]
      rw [List.flatMap_cons, ih]
      rw [splitWs_pyStrip, splitWs_spaceJoin]
      simp

theorem procSentences_shape (maxW : Nat) : ∀ (ss : List Str) (cur : List Str),
    ∀ c ∈ procSentences maxW ss cur, ∃ g, c = pyStrip (spaceJoin g) := by
  intro ss
  induction ss with
  | nil =>
    intro cur c hc
    have hc2 : c ∈ (if cur = [] then ([] : List Str)
        else [pyStrip (spaceJoin cur)]) := hc
    by_cases h : cur = []
    · rw [if_pos h] at hc2; cases hc2
    · rw [if_neg h] at hc2
      exact ⟨cur, List.mem_singleton.mp hc2⟩
  | cons s rest ih =>
    intro cur c hc
    have hc2 : c ∈ (if wordCount (spaceJoin (cur ++ [s])) ≤ maxW then
        procSentences maxW rest (cur ++ [s])
      else pyStrip (spaceJoin cur) :: procSentences maxW rest [s]) := hc
    by_cases hw : wordCount (spaceJoin (cur ++ [s])) ≤ maxW
    · rw [if_pos hw] at hc2
      exact ih _ c hc2
    · rw [if_neg hw] at hc2
      rcases List.mem_cons.mp hc2 with hceq | hc3
      · exact ⟨cur, hceq⟩
      · exact ih _ c hc3

theorem dropWhile_head_not (p : Char → Bool) : ∀ (l : Str) (c : Char) (cs : Str),
    l.dropWhile p = c :: cs → p c = false := by
  intro l
  induction l with
  | nil => intro c cs h; cases h
  | cons a as ih =>
    intro c cs h
    by_cases ha : p a
    · rw [List.dropWhile_cons_of_pos ha] at h
      exact ih c cs h
    · rw [List.dropWhile_cons_of_neg ha] at h
      cases h
      exact Bool.not_eq_true _ ▸ (by simpa using ha)

theorem pyStrip_not_all_space (x : Str) (hne : pyStrip x ≠ []) :
    (pyStrip x).all pyIsSpace = false := by
  rcases hz : (x.dropWhile pyIsSpace).reverse.dropWhile pyIsSpace with _ | ⟨d, ds⟩
  · exfalso; apply hne; show _ = []; rw [pyStrip]; rw [hz]; rfl
  · have hd : pyIsSpace d = false := dropWhile_head_not pyIsSpace _ d ds hz
    have hmem : d ∈ pyStrip x := by
      show d ∈ ((x.dropWhile pyIsSpace).reverse.dropWhile pyIsSpace).reverse
      rw [hz, List.mem_reverse]
      simp
    rw [List.all_eq_false]
    exact ⟨d, hmem, by simp [hd]⟩

theorem flatMap_flatMap_splitWs (paras : List Str) (f : Str → List Str) :
    (paras.flatMap f).flatMap splitWs
      = paras.flatMap (fun p => (f p).flatMap splitWs) := by
  induction paras with
  | nil => rfl
  | cons p ps ih =>
    rw [List.flatMap_cons, List.flatMap_cons, List.flatMap_append, ih]

theorem procSentences_sizes (maxW : Nat) (S : List Str) : ∀ (ss cur : List Str),
    (∀ s ∈ ss, s ∈ S) →
    (cur = [] ∨ wordCount (spaceJoin cur) ≤ maxW ∨ ∃ s ∈ S, cur = [s]) →
    ∀ c ∈ procSentences maxW ss cur,
      wordCount c ≤ maxW ∨ ∃ s ∈ S, c = pyStrip s := by
  intro ss
  induction ss with
  | nil =>
    intro cur _ hinv c hc
    have hc2 : c ∈ (if cur = [] then ([] : List Str)
        else [pyStrip (spaceJoin cur)]) := hc
    by_cases h : cur = []
    · rw [if_pos h] at hc2; cases hc2
    · rw [if_neg h] at hc2
      have hceq := List.mem_singleton.mp hc2
      rcases hinv with h0 | hwc | ⟨s, hs, hcur⟩
      · exact absurd h0 h
      · left
        rw [hceq]
        show (splitWs (pyStrip (spaceJoin cur))).length ≤ maxW
        rw [splitWs_pyStrip]
        exact hwc
      · right
        exact ⟨s, hs, by rw [hceq, hcur]; exact rfl⟩
  | cons s rest ih =>
    intro cur hss hinv c hc
    have hc2 : c ∈ (if wordCount (spaceJoin (cur ++ [s])) ≤ maxW then
        procSentences maxW rest (cur ++ [s])
      else pyStrip (spaceJoin cur) :: procSentences maxW rest [s]) := hc
    have hsS : s ∈ S := hss s (by simp)
    have hrest : ∀ x ∈ rest, x ∈ S := fun x hx => hss x (by simp [hx])
    by_cases hw : wordCount (spaceJoin (cur ++ [s])) ≤ maxW
    · rw [if_pos hw] at hc2
      exact ih _ hrest (Or.inr (Or.inl hw)) c hc2
    · rw [if_neg hw] at hc2
      rcases List.mem_cons.mp hc2 with hceq | hc3
      · rcases hinv with h0 | hwc | ⟨t, ht, hcur⟩
        · left
          rw [hceq, h0]
          have hz : wordCount (pyStrip (spaceJoin ([] : List Str))) = 0 := rfl
          rw [hz]
          exact Nat.zero_le maxW
        · left
          rw [hceq]
          show (splitWs (pyStrip (spaceJoin cur))).length ≤ maxW
          rw [splitWs_pyStrip]
          exact hwc
        · right
          exact ⟨t, ht, by rw [hceq, hcur]; exact rfl⟩
      · exact ih _ hrest (Or.inr (Or.inr ⟨s, hsS, rfl⟩)) c hc3

/-- C4: For every input text and every `max_words` bound, concatenating
the produced chunks with single spaces yields the same word sequence as
concatenating the sentences obtained by splitting the input directly
(lossless up to whitespace normalization), and no produced chunk is an
empty or whitespace-only string. -/
theorem C4_chunker_lossless_nonempty (text : Str) (maxW : Nat) :
    splitWs (spaceJoin (chunk_text_by_sentence_and_paragraph text maxW))
      = splitWs (spaceJoin (allSentences text))
    ∧ ∀ c ∈ chunk_text_by_sentence_and_paragraph text maxW,
        c.all pyIsSpace = false := by
  constructor
  · rw [splitWs_spaceJoin, splitWs_spaceJoin]
    show (((pyParaSplit (pyStrip text)).flatMap
        (fun para => procSentences maxW (pySentSplit (pyStrip para)) [])).filter
        (fun c => c ≠ [])).flatMap splitWs
      = ((pyParaSplit (pyStrip text)).flatMap
        (fun para => pySentSplit (pyStrip para))).flatMap splitWs
    rw [flatMap_splitWs_filter_ne_nil, flatMap_flatMap_splitWs,
        flatMap_flatMap_splitWs]
    have hfun : (fun p => (procSentences maxW (pySentSplit (pyStrip p)) []).flatMap
        splitWs) = (fun p => (pySentSplit (pyStrip p)).flatMap splitWs) := by
      funext p
      have h := procSentences_flatMap maxW (pySentSplit (pyStrip p)) []
      simpa using h
    rw [hfun]
  · intro c hc
    have hc1 : c ∈ ((pyParaSplit (pyStrip text)).flatMap
        (fun para => procSentences maxW (pySentSplit (pyStrip para)) [])).filter
        (fun c => c ≠ []) := hc
    have hmem := List.mem_filter.mp hc1
    have hne : c ≠ [] := by simpa using hmem.2
    rcases List.mem_flatMap.mp hmem.1 with ⟨para, _, hcp⟩
    rcases procSentences_shape maxW _ _ c hcp with ⟨g, hg⟩
    rw [hg] at hne ⊢
    exact pyStrip_not_all_space (spaceJoin g) hne

/-- Witness for C4 at a concrete input. -/
theorem C4_witness :
    ("One two.".toList).all pyIsSpace = false :=
  (C4_chunker_lossless_nonempty "One two. Three".toList 2).2
    "One two.".toList (by decide)

/-- C5: Every chunk produced by the chunker has word count at most
`max_words`, except a chunk that is a single (stripped) sentence of the
input, which is emitted unsplit as its own oversized chunk. -/
theorem C5_chunker_word_bound (text : Str) (maxW : Nat) :
    ∀ c ∈ chunk_text_by_sentence_and_paragraph text maxW,
      wordCount c ≤ maxW ∨
        (maxW < wordCount c ∧ ∃ s ∈ allSentences text, c = pyStrip s) := by
  intro c hc
  have hc1 : c ∈ ((pyParaSplit (pyStrip text)).flatMap
      (fun para => procSentences maxW (pySentSplit (pyStrip para)) [])).filter
      (fun c => c ≠ []) := hc
  have hc2 := (List.mem_filter.mp hc1).1
  rcases List.mem_flatMap.mp hc2 with ⟨para, hpara, hcp⟩
  have hs : ∀ x ∈ pySentSplit (pyStrip para), x ∈ allSentences text := by
    intro x hx
    exact List.mem_flatMap.mpr ⟨para, hpara, hx⟩
  have hmain := procSentences_sizes maxW (allSentences text)
      (pySentSplit (pyStrip para)) [] hs (Or.inl rfl) c hcp
  rcases hmain with h | ⟨s, hsS, hceq⟩
  · exact Or.inl h
  · by_cases hle : wordCount c ≤ maxW
    · exact Or.inl hle
    · exact Or.inr ⟨by omega, ⟨s, hsS, hceq⟩⟩

/-- Witness for C5 at a concrete input: a three-word sentence with
`max_words = 2` becomes its own oversized chunk. -/
theorem C5_witness :
    wordCount ("One two three.".toList) ≤ 2 ∨
      (2 < wordCount ("One two three.".toList) ∧
        ∃ s ∈ allSentences ("One two three. Ok.".toList),
          "One two three.".toList = pyStrip s) :=
  C5_chunker_word_bound "One two three. Ok.".toList 2
    "One two three.".toList (by decide)

/-! ### Relevance filter (`_filterresults` in src/search.py)

A raw hit is the `(doc_name, text)` pair the function reads off each result
object; `results.objects` is modelled as the list of these pairs.  The
`row_data` dict built per hit carries exactly the `doc_name` and `text`
fields, so `resultdict` is the hit list itself. -/

/-- One update of `hitsdict[name] += 1` / `hitsdict[name] = 1`
(the `try/except KeyError` at lines 74-77): bump the existing entry in
place, or append a new entry with count 1 (Python dicts preserve
insertion order). -/
def bumpCount : List (String × Nat) → String → List (String × Nat)
  | [], n => [(n, 1)]
  | (k, v) :: rest, n =>
    if k = n then (k, v + 1) :: rest else (k, v) :: bumpCount rest n

/-- Embedding of `hitsdict` after the loop: per-document hit counts in first-occurrence
order of the document names. -/
def buildHits (names : List String) : List (String × Nat) :=
  names.foldl bumpCount []

/-- Embedding of `hitsdict` computed from the hit list. -/
def hitCounts (hits : List (String × String)) : List (String × Nat) :=
  buildHits (hits.map Prod.fst)

/-- Embedding of `pandas.DataFrame.drop_duplicates()`: remove exact-duplicate rows,
keeping the first occurrence; `seen` accumulates rows already emitted. -/
def dropDupAux : List (String × String) → List (String × String) →
    List (String × String)
  | _, [] => []
  | seen, r :: rest =>
    if r ∈ seen then dropDupAux seen rest
    else r :: dropDupAux (r :: seen) rest

/-- Embedding of `res_df = pd.DataFrame(resultdict).drop_duplicates()` as a row list. -/
def pyDropDuplicates (rows : List (String × String)) : List (String × String) :=
  dropDupAux [] rows

/-- Insertion of a value into an ascending list (ascending sort used to
model the internal sort of `np.quantile`). -/
def insertAsc (x : Nat) : List Nat → List Nat
  | [] => [x]
  | y :: ys => if x ≤ y then x :: y :: ys else y :: insertAsc x ys

/-- Ascending sort of the hit-count values. -/
def sortAsc : List Nat → List Nat
  | [] => []
  | v :: vs => insertAsc v (sortAsc vs)

/-- Python `int()` applied to a real value: truncation toward zero,
modelled exactly on `ℚ` as T-division of numerator by denominator. -/
def pyTrunc (q : ℚ) : ℤ := Int.tdiv q.num (q.den : ℤ)

/-- On non-negative rationals, Python truncation agrees with the floor. -/
theorem pyTrunc_eq_floor (q : ℚ) (h : 0 ≤ q) : pyTrunc q = ⌊q⌋ := by
  rw [pyTrunc, Rat.floor_def]
  exact Int.tdiv_eq_ediv (Rat.num_nonneg.mpr h) (by positivity)

/-- Embedding of `np.quantile(vals, 0.90)` with the default linear interpolation,
modelled exactly over `ℚ`: with the values sorted ascending as
`s[0..n-1]`, the virtual index is `h = 0.9 * (n - 1)`, and the result
interpolates between `s[⌊h⌋]` and `s[⌊h⌋ + 1]`.  (numpy computes this in
floating point; the model uses exact rational arithmetic.) -/
def npQuantile90 (vals : List Nat) : ℚ :=
  let s := sortAsc vals
  let n := s.length
  let h : ℚ := (9 / 10) * ((n : ℚ) - 1)
  let i : Nat := (pyTrunc h).toNat
  let fr : ℚ := h - (i : ℚ)
  if i + 1 < n then
    (s.getD i 0 : ℚ) + fr * ((s.getD (i + 1) 0 : ℚ) - (s.getD i 0 : ℚ))
  else
    (s.getD i 0 : ℚ)

/-- Embedding of `int(np.quantile(list(hitsdict.values()), 0.90))` (line 84). -/
def hitThreshold (hits : List (String × String)) : ℤ :=
  pyTrunc (npQuantile90 ((hitCounts hits).map Prod.snd))

/-- Embedding of `high_values`: document names whose hit-count is `>=` the truncated
90th-percentile value (line 84). -/
def highValues (hits : List (String × String)) : List String :=
  ((hitCounts hits).filter
    (fun kv => hitThreshold hits ≤ (kv.2 : ℤ))).map Prod.fst

/-- The row frame after deduplication and, when `hitsdict` is non-empty,
the `isin(high_values)` restriction (lines 81-85). -/
def filteredRows (hits : List (String × String)) : List (String × String) :=
  let res_df := pyDropDuplicates hits
  if (hitCounts hits).length > 0 then
    res_df.filter (fun r => (highValues hits).contains r.1)
  else
    res_df

/-- One step of `dict(zip(...))` construction: later pairs overwrite the
value of an existing key in place; fresh keys are appended. -/
def updateAssoc : List (String × String) → String → String →
    List (String × String)
  | [], k, v => [(k, v)]
  | (k0, v0) :: rest, k, v =>
    if k0 = k then (k0, v) :: rest else (k0, v0) :: updateAssoc rest k v

/-- Embedding of `dict(zip(res_df['doc_name'], res_df['text']))`: a Python dict built
from the row list (last value per key wins), as an ordered association
list with unique keys. -/
def pyDictOfPairs (rows : List (String × String)) : List (String × String) :=
  rows.foldl (fun d r => updateAssoc d r.1 r.2) []

/-- Embedding of `_filterresults(results)` (src/search.py lines 46-94).  When the hit
list is empty, `pd.DataFrame([])` has no columns, so the column access
`res_df['doc_name']` in `dict(zip(res_df['doc_name'], res_df['text']))`
at line 88 raises `KeyError` (propagated by the `except` clause after
logging); otherwise the evidence map is returned. -/
def filterresults (hits : List (String × String)) :
    Except String (List (String × String)) :=
  if hits = [] then Except.error "KeyError: doc_name"
  else Except.ok (pyDictOfPairs (filteredRows hits))

/-! ### Association-list lemmas for the filter -/

/-- Key lookup in an ordered association list (first match wins), the
operation backing `hitsdict[k]` and final `dict` reads. -/
def alookup {β : Type} : List (String × β) → String → Option β
  | [], _ => none
  | (k, v) :: rest, d => if d = k then some v else alookup rest d

theorem alookup_none_iff {β : Type} : ∀ (m : List (String × β)) (d : String),
    alookup m d = none ↔ d ∉ m.map Prod.fst := by
  intro m
  induction m with
  | nil => intro d; simp [alookup]
  | cons kv rest ih =>
    intro d
    rcases kv with ⟨k, v⟩
    show (if d = k then some v else alookup rest d) = none ↔ _
    by_cases hdk : d = k
    · simp [hdk]
    · simp [hdk, ih d]

theorem mem_of_alookup_eq_some {β : Type} :
    ∀ (m : List (String × β)) (d : String) (v : β),
    alookup m d = some v → (d, v) ∈ m := by
  intro m
  induction m with
  | nil => intro d v h; cases h
  | cons kv rest ih =>
    intro d v h
    rcases kv with ⟨k, w⟩
    have h2 : (if d = k then some w else alookup rest d) = some v := h
    by_cases hdk : d = k
    · rw [if_pos hdk] at h2
      cases h2
      subst hdk
      exact List.mem_cons_self _ _
    · rw [if_neg hdk] at h2
      exact List.mem_cons_of_mem _ (ih d v h2)

theorem alookup_eq_some_of_mem_nodup {β : Type} :
    ∀ (m : List (String × β)), (m.map Prod.fst).Nodup →
    ∀ (d : String) (v : β), (d, v) ∈ m → alookup m d = some v := by
  intro m
  induction m with
  | nil => intro _ d v h; cases h
  | cons kv rest ih =>
    intro hnd d v h
    rcases kv with ⟨k, w⟩
    have hnd2 := List.nodup_cons.mp hnd
    rcases List.mem_cons.mp h with heq | hmem
    · cases heq
      show (if d = d then some v else alookup rest d) = some v
      rw [if_pos rfl]
    · show (if d = k then some w else alookup rest d) = some v
      by_cases hdk : d = k
      · exfalso
        apply hnd2.1
        rw [← hdk]
        exact List.mem_map.mpr ⟨(d, v), hmem, rfl⟩
      · rw [if_neg hdk]
        exact ih hnd2.2 d v hmem

theorem mem_keys_iff_alookup {β : Type} (m : List (String × β)) (d : String) :
    d ∈ m.map Prod.fst ↔ ∃ v, alookup m d = some v := by
  constructor
  · intro h
    rcases halo : alookup m d with _ | v
    · exact absurd h ((alookup_none_iff m d).mp halo)
    · exact ⟨v, rfl⟩
  · intro ⟨v, hv⟩
    rcases List.mem_map.mp (List.mem_map_of_mem Prod.fst
      (mem_of_alookup_eq_some m d v hv)) with ⟨x, _, _⟩
    exact List.mem_map_of_mem Prod.fst (mem_of_alookup_eq_some m d v hv)

theorem keys_bumpCount (m : List (String × Nat)) (n : String) :
    (bumpCount m n).map Prod.fst =
      if n ∈ m.map Prod.fst then m.map Prod.fst else m.map Prod.fst ++ [n] := by
  induction m with
  | nil => rfl
  | cons kv rest ih =>
    rcases kv with ⟨k, v⟩
    show (if k = n then (k, v + 1) :: rest else (k, v) :: bumpCount rest n).map
        Prod.fst = _
    by_cases hkn : k = n
    · subst hkn
      simp
    · rw [if_neg hkn, List.map_cons, ih]
      have hne : (n ∈ k :: rest.map Prod.fst) ↔ n ∈ rest.map Prod.fst := by
        simp [Ne.symm hkn]
      by_cases hmem : n ∈ rest.map Prod.fst
      · simp [hmem, hne]
      · simp [hmem, hne]

theorem alookup_bumpCount (m : List (String × Nat)) (n d : String) :
    alookup (bumpCount m n) d =
      if d = n then some (((alookup m d).getD 0) + 1) else alookup m d := by
  induction m with
  | nil =>
    show alookup [(n, 1)] d = _
    by_cases hdn : d = n
    · subst hdn; simp [alookup]
    · simp [alookup, hdn]
  | cons kv rest ih =>
    rcases kv with ⟨k, v⟩
    show alookup (if k = n then (k, v + 1) :: rest
        else (k, v) :: bumpCount rest n) d = _
    by_cases hkn : k = n
    · subst hkn
      by_cases hdk : d = k
      · subst hdk; simp [alookup]
      · simp [alookup, hdk]
    · rw [if_neg hkn]
      by_cases hdk : d = k
      · subst hdk
        have hdn : ¬d = n := fun h => hkn (h ▸ rfl)
        simp [alookup, hdn]
      · show (if d = k then some v else alookup (bumpCount rest n) d) = _
        rw [if_neg hdk, ih]
        simp [alookup, hdk]

theorem keys_nodup_bumpCount (m : List (String × Nat)) (n : String)
    (h : (m.map Prod.fst).Nodup) : ((bumpCount m n).map Prod.fst).Nodup := by
  rw [keys_bumpCount]
  by_cases hmem : n ∈ m.map Prod.fst
  · rw [if_pos hmem]; exact h
  · rw [if_neg hmem]
    refine List.Nodup.append h (List.nodup_singleton n) ?_
    intro a ha han
    rw [List.mem_singleton] at han
    exact hmem (han ▸ ha)

theorem mem_keys_bumpCount (m : List (String × Nat)) (n d : String) :
    d ∈ (bumpCount m n).map Prod.fst ↔ d ∈ m.map Prod.fst ∨ d = n := by
  rw [keys_bumpCount]
  by_cases hmem : n ∈ m.map Prod.fst
  · rw [if_pos hmem]
    constructor
    · exact fun h => Or.inl h
    · rintro (h | rfl)
      · exact h
      · exact hmem
  · rw [if_neg hmem]
    simp

theorem alookup_foldl_bumpCount (names : List String) :
    ∀ (m : List (String × Nat)) (d : String),
    (alookup (names.foldl bumpCount m) d).getD 0
      = (alookup m d).getD 0 + names.count d := by
  induction names with
  | nil => intro m d; simp
  | cons n rest ih =>
    intro m d
    show (alookup (rest.foldl bumpCount (bumpCount m n)) d).getD 0 = _
    rw [ih (bumpCount m n) d, alookup_bumpCount]
    by_cases hdn : d = n
    · rw [if_pos hdn, hdn]
      simp [List.count_cons]
      omega
    · rw [if_neg hdn]
      have : ¬(n = d) := fun h => hdn h.symm
      simp [List.count_cons, this]

theorem alookup_foldl_bumpCount_none (names : List String) :
    ∀ (m : List (String × Nat)) (d : String),
    alookup (names.foldl bumpCount m) d = none ↔
      alookup m d = none ∧ d ∉ names := by
  induction names with
  | nil => intro m d; simp
  | cons n rest ih =>
    intro m d
    show alookup (rest.foldl bumpCount (bumpCount m n)) d = none ↔ _
    rw [ih (bumpCount m n) d, alookup_bumpCount]
    by_cases hdn : d = n
    · simp [hdn]
    · rw [if_neg hdn]
      simp [hdn]

theorem keys_nodup_foldl_bumpCount (names : List String) :
    ∀ (m : List (String × Nat)), (m.map Prod.fst).Nodup →
    (((names.foldl bumpCount m)).map Prod.fst).Nodup := by
  induction names with
  | nil => intro m h; exact h
  | cons n rest ih =>
    intro m h
    exact ih (bumpCount m n) (keys_nodup_bumpCount m n h)

theorem hitCounts_keys_nodup (hits : List (String × String)) :
    ((hitCounts hits).map Prod.fst).Nodup :=
  keys_nodup_foldl_bumpCount (hits.map Prod.fst) [] List.nodup_nil

theorem alookup_hitCounts (hits : List (String × String)) (d : String) :
    alookup (hitCounts hits) d =
      if d ∈ hits.map Prod.fst then some ((hits.map Prod.fst).count d)
      else none := by
  by_cases hmem : d ∈ hits.map Prod.fst
  · rw [if_pos hmem]
    rcases halo : alookup (hitCounts hits) d with _ | v
    · exfalso
      have h2 := (alookup_foldl_bumpCount_none (hits.map Prod.fst) [] d).mp halo
      exact h2.2 hmem
    · have hg : (alookup (hitCounts hits) d).getD 0
          = (alookup ([] : List (String × Nat)) d).getD 0
            + (hits.map Prod.fst).count d :=
        alookup_foldl_bumpCount (hits.map Prod.fst) [] d
      rw [halo] at hg
      simp [alookup] at hg
      rw [hg]
  · rw [if_neg hmem]
    exact (alookup_foldl_bumpCount_none (hits.map Prod.fst) [] d).mpr
      ⟨rfl, hmem⟩

theorem mem_hitCounts_iff (hits : List (String × String)) (d : String) (v : Nat) :
    (d, v) ∈ hitCounts hits ↔
      d ∈ hits.map Prod.fst ∧ v = (hits.map Prod.fst).count d := by
  constructor
  · intro h
    have hlk := alookup_eq_some_of_mem_nodup (hitCounts hits)
      (hitCounts_keys_nodup hits) d v h
    rw [alookup_hitCounts] at hlk
    by_cases hmem : d ∈ hits.map Prod.fst
    · rw [if_pos hmem] at hlk
      cases hlk
      exact ⟨hmem, rfl⟩
    · rw [if_neg hmem] at hlk
      cases hlk
  · intro ⟨hmem, hv⟩
    apply mem_of_alookup_eq_some
    rw [alookup_hitCounts, if_pos hmem, hv]

theorem hitCounts_ne_nil (hits : List (String × String)) (hne : hits ≠ []) :
    hitCounts hits ≠ [] := by
  rcases hits with _ | ⟨⟨d, t⟩, rest⟩
  · exact absurd rfl hne
  · intro hcon
    have hmem : d ∈ (((d, t) :: rest).map Prod.fst) := by simp
    have := alookup_hitCounts ((d, t) :: rest) d
    rw [if_pos hmem, hcon] at this
    cases this

/-! ### Deduplication and dict-construction lemmas -/

theorem mem_dropDupAux : ∀ (rows : List (String × String))
    (seen : List (String × String)) (x : String × String),
    x ∈ dropDupAux seen rows ↔ x ∈ rows ∧ x ∉ seen := by
  intro rows
  induction rows with
  | nil => intro seen x; simp [dropDupAux]
  | cons r rest ih =>
    intro seen x
    show x ∈ (if r ∈ seen then dropDupAux seen rest
      else r :: dropDupAux (r :: seen) rest) ↔ _
    by_cases hr : r ∈ seen
    · rw [if_pos hr, ih]
      constructor
      · intro ⟨h1, h2⟩; exact ⟨List.mem_cons_of_mem r h1, h2⟩
      · intro ⟨h1, h2⟩
        rcases List.mem_cons.mp h1 with rfl | h3
        · exact absurd hr h2
        · exact ⟨h3, h2⟩
    · rw [if_neg hr]
      constructor
      · intro h
        rcases List.mem_cons.mp h with rfl | h2
        · exact ⟨List.mem_cons_self _ _, hr⟩
        · have := (ih (r :: seen) x).mp h2
          refine ⟨List.mem_cons_of_mem r this.1, fun hc => this.2 ?_⟩
          exact List.mem_cons_of_mem r hc
      · intro ⟨h1, h2⟩
        rcases List.mem_cons.mp h1 with rfl | h3
        · exact List.mem_cons_self _ _
        · by_cases hxr : x = r
          · subst hxr; exact List.mem_cons_self _ _
          · refine List.mem_cons_of_mem _ ((ih (r :: seen) x).mpr ⟨h3, ?_⟩)
            intro hc
            rcases List.mem_cons.mp hc with h4 | h4
            · exact hxr h4
            · exact h2 h4

theorem mem_pyDropDuplicates (rows : List (String × String))
    (x : String × String) : x ∈ pyDropDuplicates rows ↔ x ∈ rows := by
  rw [pyDropDuplicates, mem_dropDupAux]
  simp

theorem alookup_updateAssoc (m : List (String × String)) (k v : String) :
    ∀ (d : String), alookup (updateAssoc m k v) d =
      if d = k then some v else alookup m d := by
  induction m with
  | nil =>
    intro d
    show alookup [(k, v)] d = _
    by_cases hdk : d = k <;> simp [alookup, hdk]
  | cons kv0 rest ih =>
    intro d
    rcases kv0 with ⟨k0, v0⟩
    show alookup (if k0 = k then (k0, v) :: rest
      else (k0, v0) :: updateAssoc rest k v) d = _
    by_cases hk0 : k0 = k
    · subst hk0
      by_cases hdk : d = k0 <;> simp [alookup, hdk]
    · rw [if_neg hk0]
      by_cases hdk : d = k0
      · have hne : ¬d = k := fun h => hk0 (by rw [← hdk]; exact h)
        show (if d = k0 then some v0 else alookup (updateAssoc rest k v) d) = _
        rw [if_pos hdk, if_neg hne]
        show _ = (if d = k0 then some v0 else alookup rest d)
        rw [if_pos hdk]
      · show (if d = k0 then some v0 else alookup (updateAssoc rest k v) d) = _
        rw [if_neg hdk, ih d]
        have hstep : alookup ((k0, v0) :: rest) d = alookup rest d := by
          show (if d = k0 then some v0 else alookup rest d) = _
          rw [if_neg hdk]
        rw [hstep]

theorem keys_updateAssoc (m : List (String × String)) (k v : String) :
    (updateAssoc m k v).map Prod.fst =
      if k ∈ m.map Prod.fst then m.map Prod.fst else m.map Prod.fst ++ [k] := by
  induction m with
  | nil => rfl
  | cons kv0 rest ih =>
    rcases kv0 with ⟨k0, v0⟩
    show (if k0 = k then (k0, v) :: rest
      else (k0, v0) :: updateAssoc rest k v).map Prod.fst = _
    by_cases hk0 : k0 = k
    · subst hk0; simp
    · rw [if_neg hk0, List.map_cons, ih]
      have hne : (k ∈ k0 :: rest.map Prod.fst) ↔ k ∈ rest.map Prod.fst := by
        simp [Ne.symm hk0]
      by_cases hmem : k ∈ rest.map Prod.fst
      · simp [hmem, hne]
      · simp [hmem, hne]

theorem keys_nodup_updateAssoc (m : List (String × String)) (k v : String)
    (h : (m.map Prod.fst).Nodup) :
    ((updateAssoc m k v).map Prod.fst).Nodup := by
  rw [keys_updateAssoc]
  by_cases hmem : k ∈ m.map Prod.fst
  · rw [if_pos hmem]; exact h
  · rw [if_neg hmem]
    refine List.Nodup.append h (List.nodup_singleton k) ?_
    intro a ha han
    rw [List.mem_singleton] at han
    exact hmem (han ▸ ha)

theorem pyDictOfPairs_append_single (rows : List (String × String))
    (r : String × String) :
    pyDictOfPairs (rows ++ [r]) = updateAssoc (pyDictOfPairs rows) r.1 r.2 := by
  show (rows ++ [r]).foldl (fun d x => updateAssoc d x.1 x.2) []
    = updateAssoc (rows.foldl (fun d x => updateAssoc d x.1 x.2) []) r.1 r.2
  rw [List.foldl_append]
  rfl

theorem alookup_pyDictOfPairs (rows : List (String × String)) (d : String) :
    alookup (pyDictOfPairs rows) d = alookup rows.reverse d := by
  induction rows using List.reverseRecOn with
  | nil => rfl
  | append_singleton rows r ih =>
    rw [pyDictOfPairs_append_single, alookup_updateAssoc, List.reverse_append]
    show _ = alookup (r :: rows.reverse) d
    rcases r with ⟨k, v⟩
    show (if d = k then some v else alookup (pyDictOfPairs rows) d)
      = if d = k then some v else alookup rows.reverse d
    rw [ih]

theorem keys_nodup_pyDictOfPairs (rows : List (String × String)) :
    ((pyDictOfPairs rows).map Prod.fst).Nodup := by
  induction rows using List.reverseRecOn with
  | nil => exact List.nodup_nil
  | append_singleton rows r ih =>
    rw [pyDictOfPairs_append_single]
    exact keys_nodup_updateAssoc _ r.1 r.2 ih

/-! ### Quantile lemmas -/

theorem mem_insertAsc (x v : Nat) : ∀ (l : List Nat),
    x ∈ insertAsc v l ↔ x = v ∨ x ∈ l := by
  intro l
  induction l with
  | nil => simp [insertAsc]
  | cons y ys ih =>
    show x ∈ (if v ≤ y then v :: y :: ys else y :: insertAsc v ys) ↔ _
    by_cases hv : v ≤ y
    · rw [if_pos hv]
      simp
    · rw [if_neg hv]
      simp [ih]
      tauto

theorem mem_sortAsc (x : Nat) : ∀ (l : List Nat), x ∈ sortAsc l ↔ x ∈ l := by
  intro l
  induction l with
  | nil => simp [sortAsc]
  | cons v vs ih =>
    show x ∈ insertAsc v (sortAsc vs) ↔ _
    rw [mem_insertAsc, ih]
    simp

theorem length_insertAsc (v : Nat) : ∀ (l : List Nat),
    (insertAsc v l).length = l.length + 1 := by
  intro l
  induction l with
  | nil => rfl
  | cons y ys ih =>
    show (if v ≤ y then v :: y :: ys else y :: insertAsc v ys).length = _
    by_cases hv : v ≤ y
    · rw [if_pos hv]; rfl
    · rw [if_neg hv]
      show (insertAsc v ys).length + 1 = _
      rw [ih]
      rfl

theorem length_sortAsc : ∀ (l : List Nat), (sortAsc l).length = l.length := by
  intro l
  induction l with
  | nil => rfl
  | cons v vs ih =>
    show (insertAsc v (sortAsc vs)).length = _
    rw [length_insertAsc, ih]
    rfl

theorem getD_mem_of_lt : ∀ (l : List Nat) (i : Nat), i < l.length →
    l.getD i 0 ∈ l := by
  intro l
  induction l with
  | nil => intro i h; cases h
  | cons x xs ih =>
    intro i h
    cases i with
    | zero => simp
    | succ j =>
      have hj : j < xs.length := by simpa using h
      have hmem := ih j hj
      show (x :: xs).getD (j + 1) 0 ∈ x :: xs
      rw [List.getD_cons_succ]
      exact List.mem_cons_of_mem x hmem

theorem pyTrunc_natCast (c : Nat) : pyTrunc (c : ℚ) = (c : ℤ) := by
  rw [pyTrunc_eq_floor _ (by positivity)]
  exact_mod_cast Int.floor_natCast c

theorem npQuantile90_const (l : List Nat) (c : Nat) (hne : l ≠ [])
    (hall : ∀ v ∈ l, v = c) : npQuantile90 l = (c : ℚ) := by
  have hlen : (sortAsc l).length = l.length := length_sortAsc l
  have hpos : 0 < l.length := List.length_pos.mpr hne
  have hsval : ∀ i, i < (sortAsc l).length → (sortAsc l).getD i 0 = c := by
    intro i hi
    exact hall _ ((mem_sortAsc _ l).mp (getD_mem_of_lt (sortAsc l) i hi))
  rw [npQuantile90]
  have hn1 : (1 : ℚ) ≤ ((sortAsc l).length : ℚ) := by
    rw [hlen]; exact_mod_cast hpos
  have hh0 : (0 : ℚ) ≤ (9 / 10) * (((sortAsc l).length : ℚ) - 1) := by
    apply mul_nonneg (by norm_num)
    linarith
  have hhlt : (9 / 10) * (((sortAsc l).length : ℚ) - 1)
      < ((sortAsc l).length : ℚ) := by
    nlinarith
  set h : ℚ := (9 / 10) * (((sortAsc l).length : ℚ) - 1) with hdefh
  have htr : pyTrunc h = ⌊h⌋ := pyTrunc_eq_floor h hh0
  have hfl0 : (0 : ℤ) ≤ ⌊h⌋ := Int.floor_nonneg.mpr hh0
  have hilt : ((pyTrunc h).toNat : ℚ) ≤ h := by
    rw [htr]
    have h1 : ((⌊h⌋.toNat : ℤ) : ℚ) ≤ h := by
      rw [Int.toNat_of_nonneg hfl0]
      exact_mod_cast Int.floor_le h
    exact_mod_cast h1
  have hile : (pyTrunc h).toNat < (sortAsc l).length := by
    have : ((pyTrunc h).toNat : ℚ) < ((sortAsc l).length : ℚ) :=
      lt_of_le_of_lt hilt hhlt
    exact_mod_cast this
  by_cases hcase : (pyTrunc h).toNat + 1 < (sortAsc l).length
  · rw [if_pos hcase]
    rw [hsval _ hile, hsval _ hcase]
    ring
  · rw [if_neg hcase]
    rw [hsval _ hile]

/-! ### Filter membership characterization -/

attribute [local semireducible] Rat.add Rat.sub Rat.mul Rat.inv

theorem exists_pair_mem_iff_keys {β : Type} (m : List (String × β))
    (d : String) : (∃ v, (d, v) ∈ m) ↔ d ∈ m.map Prod.fst := by
  constructor
  · intro ⟨v, hv⟩
    exact List.mem_map.mpr ⟨(d, v), hv, rfl⟩
  · intro h
    rcases List.mem_map.mp h with ⟨⟨k, v⟩, hm, hf⟩
    cases hf
    exact ⟨v, hm⟩

theorem mem_highValues (hits : List (String × String)) (d : String) :
    d ∈ highValues hits ↔
      d ∈ hits.map Prod.fst ∧
        hitThreshold hits ≤ ((hits.map Prod.fst).count d : ℤ) := by
  rw [highValues]
  constructor
  · intro h
    rcases List.mem_map.mp h with ⟨⟨k, v⟩, hmem, rfl⟩
    rcases List.mem_filter.mp hmem with ⟨hmem2, hpred⟩
    rcases (mem_hitCounts_iff hits k v).mp hmem2 with ⟨hd, hv⟩
    subst hv
    exact ⟨hd, by simpa using hpred⟩
  · intro ⟨hd, hth⟩
    apply List.mem_map.mpr
    refine ⟨(d, (hits.map Prod.fst).count d), ?_, rfl⟩
    apply List.mem_filter.mpr
    exact ⟨(mem_hitCounts_iff hits d _).mpr ⟨hd, rfl⟩, by simpa using hth⟩

theorem mem_filteredRows (hits : List (String × String)) (hne : hits ≠ [])
    (r : String × String) :
    r ∈ filteredRows hits ↔ r ∈ hits ∧ r.1 ∈ highValues hits := by
  have hlen : 0 < (hitCounts hits).length :=
    List.length_pos.mpr (hitCounts_ne_nil hits hne)
  show r ∈ (if (hitCounts hits).length > 0 then
      (pyDropDuplicates hits).filter (fun x => (highValues hits).contains x.1)
    else pyDropDuplicates hits) ↔ _
  rw [if_pos hlen, List.mem_filter, mem_pyDropDuplicates]
  constructor
  · intro ⟨h1, h2⟩
    exact ⟨h1, by simpa using h2⟩
  · intro ⟨h1, h2⟩
    exact ⟨h1, by simpa using h2⟩

theorem mem_keys_evidence (hits : List (String × String)) (hne : hits ≠ [])
    (d : String) :
    (∃ t, (d, t) ∈ pyDictOfPairs (filteredRows hits)) ↔
      ((∃ t, (d, t) ∈ hits) ∧
        hitThreshold hits ≤ ((hits.map Prod.fst).count d : ℤ)) := by
  rw [exists_pair_mem_iff_keys, mem_keys_iff_alookup]
  constructor
  · intro ⟨v, hv⟩
    rw [alookup_pyDictOfPairs] at hv
    have hrow : (d, v) ∈ filteredRows hits := by
      rw [← List.mem_reverse]
      exact mem_of_alookup_eq_some _ d v hv
    rcases (mem_filteredRows hits hne (d, v)).mp hrow with ⟨hhit, hhigh⟩
    rcases (mem_highValues hits d).mp hhigh with ⟨_, hth⟩
    exact ⟨⟨v, hhit⟩, hth⟩
  · intro ⟨⟨t, ht⟩, hth⟩
    have hd : d ∈ hits.map Prod.fst :=
      (exists_pair_mem_iff_keys hits d).mp ⟨t, ht⟩
    have hhigh : d ∈ highValues hits := (mem_highValues hits d).mpr ⟨hd, hth⟩
    have hrow : (d, t) ∈ filteredRows hits :=
      (mem_filteredRows hits hne (d, t)).mpr ⟨ht, hhigh⟩
    have hkeys : d ∈ (filteredRows hits).reverse.map Prod.fst := by
      rw [List.map_reverse, List.mem_reverse]
      exact List.mem_map.mpr ⟨(d, t), hrow, rfl⟩
    rcases (mem_keys_iff_alookup (filteredRows hits).reverse d).mp hkeys
      with ⟨v, hv⟩
    exact ⟨v, by rw [alookup_pyDictOfPairs]; exact hv⟩

/-- C1 counterexample: With hits `[A, B, B]` the per-document counts are
`{A: 1, B: 2}`; the exact 90th percentile of `[1, 2]` is `1.9`, so the
claim as stated would retain only `B` (`1 ≥ 1.9` fails).  The code
truncates the percentile with `int()` to `1`, and the returned evidence
map does contain `A`: the count of `A` is strictly below the percentile
value, refuting "retains exactly those documents whose hit-count is ≥
that percentile value". -/
theorem C1_counterexample :
    filterresults [("A", "ta"), ("B", "tb1"), ("B", "tb2")]
      = Except.ok [("A", "ta"), ("B", "tb2")]
    ∧ ((([("A", "ta"), ("B", "tb1"), ("B", "tb2")].map
          (Prod.fst (β := String))).count "A" : ℚ) <
        npQuantile90 ((hitCounts [("A", "ta"), ("B", "tb1"), ("B", "tb2")]).map
          Prod.snd)) := by
  constructor
  · rfl
  · decide

/-- C1 (amended): For every non-empty hit list, `_filterresults`
returns (without error) the evidence map whose keys are exactly the
documents whose hit-count is greater than or equal to the
**`int()`-truncated** 90th percentile of the hit-count distribution; in
particular, when all documents have equal hit-counts, every document is
retained. -/
theorem C1_relevance_filter (hits : List (String × String)) (hne : hits ≠ []) :
    filterresults hits = Except.ok (pyDictOfPairs (filteredRows hits))
    ∧ (∀ d, (∃ t, (d, t) ∈ pyDictOfPairs (filteredRows hits)) ↔
        ((∃ t, (d, t) ∈ hits) ∧
          hitThreshold hits ≤ ((hits.map Prod.fst).count d : ℤ)))
    ∧ ((∀ p ∈ hitCounts hits, ∀ q ∈ hitCounts hits, p.2 = q.2) →
        ∀ d t, (d, t) ∈ hits →
          ∃ u, (d, u) ∈ pyDictOfPairs (filteredRows hits)) := by
  refine ⟨?_, fun d => mem_keys_evidence hits hne d, ?_⟩
  · show (if hits = [] then Except.error "KeyError: doc_name"
      else Except.ok (pyDictOfPairs (filteredRows hits))) = _
    rw [if_neg hne]
  · intro hall d t ht
    have hd : d ∈ hits.map Prod.fst := List.mem_map.mpr ⟨(d, t), ht, rfl⟩
    set c := (hits.map Prod.fst).count d with hc
    have hentry : (d, c) ∈ hitCounts hits :=
      (mem_hitCounts_iff hits d c).mpr ⟨hd, rfl⟩
    have hvals : ∀ v ∈ (hitCounts hits).map Prod.snd, v = c := by
      intro v hv
      rcases List.mem_map.mp hv with ⟨p, hp, hpv⟩
      rw [← hpv]
      exact hall p hp (d, c) hentry
    have hvne : (hitCounts hits).map Prod.snd ≠ [] := by
      intro hcon
      have := hitCounts_ne_nil hits hne
      rcases hx : hitCounts hits with _ | ⟨p, ps⟩
      · exact this hx
      · rw [hx] at hcon; cases hcon
    have hq : npQuantile90 ((hitCounts hits).map Prod.snd) = (c : ℚ) :=
      npQuantile90_const _ c hvne hvals
    have hth : hitThreshold hits ≤ (c : ℤ) := by
      rw [hitThreshold, hq, pyTrunc_natCast]
    exact (mem_keys_evidence hits hne d).mpr ⟨⟨t, ht⟩, hth⟩

/-- Witness for C1 at a concrete input. -/
theorem C1_witness :
    filterresults [("A", "t")]
      = Except.ok (pyDictOfPairs (filteredRows [("A", "t")])) :=
  (C1_relevance_filter [("A", "t")] (by decide)).1

/-- C2 (code bug): On an empty hit list `resultdict` is empty, so
`pd.DataFrame([])` has no columns and `res_df['doc_name']` at line 88
raises `KeyError` instead of returning an empty evidence map. -/
theorem C2_empty_hits_raises :
    filterresults [] = Except.error "KeyError: doc_name" := rfl

/-- C8: In any evidence map returned by `_filterresults`, document
names are unique (at most one text value per retained document), and the
text kept for a document is the last one among the deduplicated, filtered
rows — last-seen wins under the `dict(zip(...))` construction. -/
theorem C8_one_text_per_document (hits : List (String × String))
    (m : List (String × String)) (hok : filterresults hits = Except.ok m) :
    (m.map Prod.fst).Nodup ∧
      ∀ d t, (d, t) ∈ m → alookup (filteredRows hits).reverse d = some t := by
  have hok2 : (if hits = [] then
      (Except.error "KeyError: doc_name" : Except String (List (String × String)))
      else Except.ok (pyDictOfPairs (filteredRows hits))) = Except.ok m := hok
  have hm : m = pyDictOfPairs (filteredRows hits) := by
    by_cases hne : hits = []
    · rw [if_pos hne] at hok2; cases hok2
    · rw [if_neg hne] at hok2
      exact (Except.ok.inj hok2).symm
  subst hm
  refine ⟨keys_nodup_pyDictOfPairs _, fun d t hmem => ?_⟩
  rw [← alookup_pyDictOfPairs]
  exact alookup_eq_some_of_mem_nodup _ (keys_nodup_pyDictOfPairs _) d t hmem

/-- Witness for C8 at a concrete input: document `A` has two distinct
texts; the mapping keeps the last-seen one. -/
theorem C8_witness :
    alookup (filteredRows [("A", "t1"), ("A", "t2")]).reverse "A"
      = some "t2" :=
  (C8_one_text_per_document [("A", "t1"), ("A", "t2")]
      (pyDictOfPairs (filteredRows [("A", "t1"), ("A", "t2")])) rfl).2
    "A" "t2" (by decide)

/-! ### Deobfuscator (ingestion_process.py, lines 146-154) -/

/-- ASCII lower-casing (Python `str.lower` / `re.I` folding on the ASCII
data this pipeline handles). -/
def toLowerAscii (c : Char) : Char :=
  if 'A' ≤ c ∧ c ≤ 'Z' then Char.ofNat (c.toNat + 32) else c

/-- ASCII upper-casing (the other direction of `re.I` folding). -/
def toUpperAscii (c : Char) : Char :=
  if 'a' ≤ c ∧ c ≤ 'z' then Char.ofNat (c.toNat - 32) else c

/-- Match the literal `://` and return the remainder. -/
def stripScheme : Str → Option Str
  | ':' :: '/' :: '/' :: r => some r
  | _ => none

/-- Try `hxxp(s?)://` (case-insensitive) at the head of the input; on
success return the text captured by the group `(s?)` (case preserved, as
`\1` does) and the remainder after the match. -/
def tryHxxp : Str → Option (Str × Str)
  | a :: b :: c :: d :: rest =>
    if toLowerAscii a = 'h' && toLowerAscii b = 'x' && toLowerAscii c = 'x'
        && toLowerAscii d = 'p' then
      match rest with
      | e :: rest2 =>
        if toLowerAscii e = 's' then
          match stripScheme rest2 with
          | some r => some ([e], r)
          | none =>
            match stripScheme rest with
            | some r => some ([], r)
            | none => none
        else
          match stripScheme rest with
          | some r => some ([], r)
          | none => none
      | [] => none
    else none
  | _ => none

/-- Embedding of `re.sub(r"hxxp(s?)://", r"http\1://", t, flags=re.I)`: scan left to
right, replacing every match; fuel-driven structural recursion (each step
consumes at least one character). -/
def subHxxp : Nat → Str → Str
  | 0, s => s
  | _ + 1, [] => []
  | fuel + 1, c :: cs =>
    match tryHxxp (c :: cs) with
    | some (grp, rest) =>
      'h' :: 't' :: 't' :: 'p' :: (grp ++ ':' :: '/' :: '/' :: subHxxp fuel rest)
    | none => c :: subHxxp fuel cs

/-- Python `str.replace(pat, rep)` for a non-empty `pat`: replace all
non-overlapping occurrences left to right (fuel-driven). -/
def pyReplace (pat rep : Str) : Nat → Str → Str
  | 0, s => s
  | _ + 1, [] => []
  | fuel + 1, c :: cs =>
    if (c :: cs).take pat.length = pat then
      rep ++ pyReplace pat rep fuel ((c :: cs).drop pat.length)
    else
      c :: pyReplace pat rep fuel cs

/-- Python `t.replace(pat, rep)` with length-based fuel. -/
def pyReplaceAll (pat rep t : Str) : Str := pyReplace pat rep (t.length + 1) t

/-- Embedding of `deobfuscate(text)` (ingestion_process.py, lines 146-154): rewrite
`hxxp(s)://` schemes, then replace the literal substrings `[.]`, `(.)`
and `\x7b.\x7d` (brace-dot-brace) with a dot, in that order. -/
def deobfuscate (text : Str) : Str :=
  let t1 := subHxxp (text.length + 1) text
  let t2 := pyReplaceAll ("[.]".toList) (".".toList) t1
  let t3 := pyReplaceAll ("(.)".toList) (".".toList) t2
  pyReplaceAll ("\x7b.\x7d".toList) (".".toList) t3

/-- Whether `hxxp(s?)://` matches anywhere in the input. -/
def hasHxxp : Str → Bool
  | [] => false
  | c :: cs => (tryHxxp (c :: cs)).isSome || hasHxxp cs

/-- Whether the literal `pat` occurs anywhere in the input. -/
def hasSub (pat : Str) : Str → Bool
  | [] => false
  | c :: cs => decide ((c :: cs).take pat.length = pat) || hasSub pat cs

theorem subHxxp_id : ∀ (fuel : Nat) (s : Str), hasHxxp s = false →
    subHxxp fuel s = s := by
  intro fuel
  induction fuel with
  | zero => intro s _; rfl
  | succ f ih =>
    intro s hs
    cases s with
    | nil => rfl
    | cons c cs =>
      have hor : ((tryHxxp (c :: cs)).isSome || hasHxxp cs) = false := hs
      have hh : (tryHxxp (c :: cs)).isSome = false ∧ hasHxxp cs = false :=
        Bool.or_eq_false_iff.mp hor
      show (match tryHxxp (c :: cs) with
        | some (grp, rest) =>
          'h' :: 't' :: 't' :: 'p' :: (grp ++ ':' :: '/' :: '/' :: subHxxp f rest)
        | none => c :: subHxxp f cs) = c :: cs
      rcases htry : tryHxxp (c :: cs) with _ | p
      · rw [ih cs hh.2]
      · rw [htry] at hh
        cases hh.1

theorem pyReplace_id (pat rep : Str) : ∀ (fuel : Nat) (s : Str),
    hasSub pat s = false → pyReplace pat rep fuel s = s := by
  intro fuel
  induction fuel with
  | zero => intro s _; rfl
  | succ f ih =>
    intro s hs
    cases s with
    | nil => rfl
    | cons c cs =>
      have hor : (decide ((c :: cs).take pat.length = pat) || hasSub pat cs)
          = false := hs
      have hh := Bool.or_eq_false_iff.mp hor
      have hne : ¬((c :: cs).take pat.length = pat) := by
        simpa using hh.1
      show (if (c :: cs).take pat.length = pat then
          rep ++ pyReplace pat rep f ((c :: cs).drop pat.length)
        else c :: pyReplace pat rep f cs) = c :: cs
      rw [if_neg hne, ih cs hh.2]

/-- C7: `deobfuscate` rewrites case-insensitive `hxxp://`/`hxxps://`
schemes to `http://`/`https://`, then replaces the literal substrings
`[.]`, `(.)` and brace-dot-brace with a dot, and performs no other
transformation: on the documented example it produces
`https://evil.example.com`, and on any text containing none of those
patterns it is the identity.  (It is a pure, total function by
construction.) -/
theorem C7_deobfuscate :
    deobfuscate ("hxxps://evil[.]example[.]com".toList)
      = ("https://evil.example.com".toList)
    ∧ ∀ t, hasHxxp t = false →
        hasSub ("[.]".toList) t = false →
        hasSub ("(.)".toList) t = false →
        hasSub ("\x7b.\x7d".toList) t = false →
        deobfuscate t = t := by
  constructor
  · rfl
  · intro t h1 h2 h3 h4
    show pyReplaceAll ("\x7b.\x7d".toList) (".".toList)
        (pyReplaceAll ("(.)".toList) (".".toList)
          (pyReplaceAll ("[.]".toList) (".".toList)
            (subHxxp (t.length + 1) t))) = t
    rw [subHxxp_id _ t h1]
    have hrw : ∀ (pat : Str), hasSub pat t = false →
        pyReplaceAll pat (".".toList) t = t := by
      intro pat hp
      exact pyReplace_id pat (".".toList) (t.length + 1) t hp
    rw [hrw _ h2, hrw _ h3, hrw _ h4]

/-- Witness for C7: a string with no obfuscation patterns is unchanged. -/
theorem C7_witness : deobfuscate ("plain text".toList) = "plain text".toList :=
  C7_deobfuscate.2 ("plain text".toList) rfl rfl rfl rfl

/-! ### A small backtracking regex engine

`IOC_PATTERNS` (ingestion_process.py, lines 157-168) is a fixed set of ten
Python regexes.  Nine of them are used through `findall` and have no
capturing group, so each match contributes its full matched text; they are
embedded as syntax trees for a backtracking matcher with Python `re`
semantics (leftmost match, ordered alternation, greedy quantifiers, ASCII
word boundaries, optional case-insensitive folding).  The `ports` pattern
uses `finditer` with a capturing group and is embedded separately below. -/

inductive RE : Type where
  | cls (neg : Bool) (ranges : List (Char × Char)) : RE
  | wb : RE
  | seq (a b : RE) : RE
  | alt (a b : RE) : RE
  | rep (lo : Nat) (hi : Option Nat) (r : RE) : RE
  | eps : RE

/-- Character class membership over inclusive ranges. -/
def inRanges (ranges : List (Char × Char)) (c : Char) : Bool :=
  ranges.any (fun r => decide (r.1 ≤ c) && decide (c ≤ r.2))

/-- Class test with optional `re.I` case folding (a character matches a
class if it or a case variant lies in a range), and negation for `[^...]`
classes. -/
def clsTest (ci neg : Bool) (ranges : List (Char × Char)) (c : Char) : Bool :=
  let base := inRanges ranges c ||
    (ci && (inRanges ranges (toLowerAscii c) || inRanges ranges (toUpperAscii c)))
  if neg then !base else base

/-- Python `\w` on ASCII: letters, digits, underscore. -/
def isWordChar (c : Char) : Bool :=
  ('a' ≤ c && c ≤ 'z') || ('A' ≤ c && c ≤ 'Z') || ('0' ≤ c && c ≤ '9') || c = '_'

/-- Whether position `i` of `s` holds a word character. -/
def isWordAt (s : Str) (i : Nat) : Bool :=
  match s[i]? with
  | some c => isWordChar c
  | none => false

/-- Python `\b`: exactly one side of the position is a word character. -/
def wordBoundary (s : Str) (i : Nat) : Bool :=
  (if i = 0 then false else isWordAt s (i - 1)) != isWordAt s i

/-- Backtracking matcher in continuation-passing style: `reMatch ci s fuel
re i k` tries to match `re` at position `i` of `s` and calls `k` on the end
position of each candidate match, in the preference order of Python `re`
(greedy, leftmost alternatives first); the first success wins.  `fuel`
bounds the recursion depth (the wrapper supplies enough for the fixed
patterns below, every repetition body of which consumes input). -/
def reMatch (ci : Bool) (s : Str) :
    Nat → RE → Nat → (Nat → Option Nat) → Option Nat
  | 0, _, _, _ => none
  | fuel + 1, re, i, k =>
    match re with
    | .eps => k i
    | .wb => if wordBoundary s i then k i else none
    | .cls neg ranges =>
      match s[i]? with
      | some c => if clsTest ci neg ranges c then k (i + 1) else none
      | none => none
    | .seq a b => reMatch ci s fuel a i (fun j => reMatch ci s fuel b j k)
    | .alt a b =>
      match reMatch ci s fuel a i k with
      | some e => some e
      | none => reMatch ci s fuel b i k
    | .rep 0 (some 0) _ => k i
    | .rep 0 hi r =>
      match reMatch ci s fuel r i (fun j =>
        if i < j then
          reMatch ci s fuel (.rep 0 (hi.map (fun n => n - 1)) r) j k
        else none) with
      | some e => some e
      | none => k i
    | .rep (lo + 1) hi r =>
      reMatch ci s fuel r i (fun j =>
        reMatch ci s fuel (.rep lo (hi.map (fun n => n - 1)) r) j k)

/-- Depth bound for one match attempt of a pattern. -/
def reSize : RE → Nat
  | .cls _ _ => 1
  | .wb => 1
  | .eps => 1
  | .seq a b => reSize a + reSize b + 1
  | .alt a b => reSize a + reSize b + 1
  | .rep lo hi r => (max lo (hi.getD (lo + 1)) + 1) * (reSize r + 2) + 1

/-- Fuel sufficient for one match attempt at any position. -/
def matchFuel (s : Str) (re : RE) : Nat := (s.length + 2) * (reSize re + 2)

/-- Embedding of `re.finditer`/`re.findall` scanning: try the pattern at each position
left to right; on a (non-empty) match, emit the matched text and resume
after it. -/
def findAllAux (ci : Bool) (s : Str) (re : RE) : Nat → Nat → List Str
  | 0, _ => []
  | fuel + 1, pos =>
    if pos > s.length then []
    else
      match reMatch ci s (matchFuel s re) re pos some with
      | some e =>
        if pos < e then
          ((s.drop pos).take (e - pos)) :: findAllAux ci s re fuel e
        else findAllAux ci s re fuel (pos + 1)
      | none => findAllAux ci s re fuel (pos + 1)

/-- Embedding of `rx.findall(text)` for a pattern without capturing groups. -/
def findAll (ci : Bool) (s : Str) (re : RE) : List Str :=
  findAllAux ci s re (s.length + 2) 0

/-- Single literal character as a class. -/
def chr (c : Char) : RE := RE.cls false [(c, c)]

/-- A literal string of characters. -/
def reStr (cs : Str) : RE := cs.foldr (fun c acc => RE.seq (chr c) acc) RE.eps

/-- Embedding of `\d`. -/
def reDigit : RE := RE.cls false [('0', '9')]

/-- Embedding of `\bCVE-\d{4}-\d{4,7}\b` (re.I). -/
def cvesRE : RE :=
  .seq .wb (.seq (reStr ("CVE-".toList))
    (.seq (.rep 4 (some 4) reDigit)
      (.seq (chr '-') (.seq (.rep 4 (some 7) reDigit) .wb))))

/-- Embedding of `\bT\d{4}(?:\.\d{1,3})?\b` (re.I). -/
def tidsRE : RE :=
  .seq .wb (.seq (chr 'T')
    (.seq (.rep 4 (some 4) reDigit)
      (.seq (.rep 0 (some 1) (.seq (chr '.') (.rep 1 (some 3) reDigit))) .wb)))

/-- One octet `25[0-5]|2[0-4]\d|1?\d?\d`. -/
def octetRE : RE :=
  .alt (.seq (chr '2') (.seq (chr '5') (.cls false [('0', '5')])))
    (.alt (.seq (chr '2') (.seq (.cls false [('0', '4')]) reDigit))
      (.seq (.rep 0 (some 1) (chr '1')) (.seq (.rep 0 (some 1) reDigit) reDigit)))

/-- Embedding of `\b(?:(?:25[0-5]|2[0-4]\d|1?\d?\d)\.){3}(?:25[0-5]|2[0-4]\d|1?\d?\d)\b`. -/
def ipv4RE : RE :=
  .seq .wb (.seq (.rep 3 (some 3) (.seq octetRE (chr '.'))) (.seq octetRE .wb))

/-- Embedding of `[A-F0-9]` (case folding handles `a-f` under re.I). -/
def hexUpper : RE := RE.cls false [('A', 'F'), ('0', '9')]

/-- Embedding of `\b(?:[A-F0-9]{0,4}:){2,7}[A-F0-9]{0,4}\b` (re.I). -/
def ipv6RE : RE :=
  .seq .wb (.seq (.rep 2 (some 7) (.seq (.rep 0 (some 4) hexUpper) (chr ':')))
    (.seq (.rep 0 (some 4) hexUpper) .wb))

/-- Embedding of `[a-f0-9]` (case folding handles `A-F` under re.I). -/
def hexLower : RE := RE.cls false [('a', 'f'), ('0', '9')]

/-- Embedding of `\b[a-f0-9]{n}\b`. -/
def hexRun (n : Nat) : RE := .seq .wb (.seq (.rep n (some n) hexLower) .wb)

/-- Embedding of `\b[a-f0-9]{32}\b|\b[a-f0-9]{40}\b|\b[a-f0-9]{64}\b` (re.I). -/
def hashesRE : RE := .alt (hexRun 32) (.alt (hexRun 40) (hexRun 64))

/-- Embedding of `\b[A-Z0-9._%+-]+@[A-Z0-9.-]+\.[A-Z]{2,}\b` (re.I). -/
def emailsRE : RE :=
  .seq .wb (.seq (.rep 1 none (.cls false [('A', 'Z'), ('0', '9'), ('.', '.'),
      ('_', '_'), ('%', '%'), ('+', '+'), ('-', '-')]))
    (.seq (chr '@')
      (.seq (.rep 1 none (.cls false [('A', 'Z'), ('0', '9'), ('.', '.'),
          ('-', '-')]))
        (.seq (chr '.')
          (.seq (.rep 2 none (.cls false [('A', 'Z')])) .wb)))))

/-- Embedding of `\bhttps?://[^\s<>\]]+\b` (re.I). -/
def urlsRE : RE :=
  .seq .wb (.seq (reStr ("http".toList))
    (.seq (.rep 0 (some 1) (chr 's'))
      (.seq (reStr ("://".toList))
        (.seq (.rep 1 none (.cls true [(' ', ' '), ('\t', '\t'), ('\n', '\n'),
            ('\r', '\r'), ('\x0b', '\x0b'), ('\x0c', '\x0c'), ('<', '<'),
            ('>', '>'), (']', ']')])) .wb))))

/-- Embedding of `\b(?:[a-zA-Z0-9-]+\.)+[a-zA-Z]{2,}\b` (case-sensitive). -/
def domainsRE : RE :=
  .seq .wb (.seq (.rep 1 none
      (.seq (.rep 1 none (.cls false [('a', 'z'), ('A', 'Z'), ('0', '9'),
        ('-', '-')])) (chr '.')))
    (.seq (.rep 2 none (.cls false [('a', 'z'), ('A', 'Z')])) .wb))

/-- Embedding of `(?:[A-Za-z]:\\(?:[^\\\r\n]+\\)*[^\\\r\n]+)|(?:/(?:[^/\s]+/)*[^/\s]+)`
(case-sensitive, no word boundaries). -/
def pathsRE : RE :=
  .alt
    (.seq (.cls false [('A', 'Z'), ('a', 'z')])
      (.seq (chr ':')
        (.seq (chr '\\')
          (.seq (.rep 0 none (.seq (.rep 1 none
              (.cls true [('\\', '\\'), ('\r', '\r'), ('\n', '\n')]))
            (chr '\\')))
            (.rep 1 none (.cls true [('\\', '\\'), ('\r', '\r'), ('\n', '\n')]))))))
    (.seq (chr '/')
      (.seq (.rep 0 none (.seq (.rep 1 none
          (.cls true [('/', '/'), (' ', ' '), ('\t', '\t'), ('\n', '\n'),
            ('\r', '\r'), ('\x0b', '\x0b'), ('\x0c', '\x0c')]))
        (chr '/')))
        (.rep 1 none (.cls true [('/', '/'), (' ', ' '), ('\t', '\t'),
          ('\n', '\n'), ('\r', '\r'), ('\x0b', '\x0b'), ('\x0c', '\x0c')]))))

/-! ### Port extraction (`\bport\s?(\d{1,5})\b` with finditer/group(1)) -/

/-- Embedding of `\d` as a character test. -/
def isDigitChar (c : Char) : Bool := '0' ≤ c && c ≤ '9'

/-- Embedding of `\b` after a digit group: the next character must not be a word
character (the last group character is a digit, hence a word character). -/
def wbAfterDigits : Str → Bool
  | [] => true
  | c :: _ => !isWordChar c

/-- Greedy `(\d{1,5})\b`: try the candidate lengths from `k` down to 1;
return the captured digits and the remainder after them. -/
def tryDigitsK (l : Str) : Nat → Option (Str × Str)
  | 0 => none
  | k + 1 =>
    if (l.take (k + 1)).length = k + 1 && (l.take (k + 1)).all isDigitChar
        && wbAfterDigits (l.drop (k + 1)) then
      some (l.take (k + 1), l.drop (k + 1))
    else tryDigitsK l k

/-- Try `port\s?(\d{1,5})\b` (case-insensitive) at the head of the input
(the leading `\b` is checked by the scanner).  The greedy `\s?` is forced:
if the next character is whitespace it must be consumed, because a digit
cannot be whitespace. -/
def tryPort : Str → Option (Str × Str)
  | a :: b :: c :: d :: rest =>
    if toLowerAscii a = 'p' && toLowerAscii b = 'o' && toLowerAscii c = 'r'
        && toLowerAscii d = 't' then
      match rest with
      | e :: rest2 =>
        if pyIsSpace e then tryDigitsK rest2 5 else tryDigitsK rest 5
      | [] => none
    else none
  | _ => none

/-- Embedding of `finditer` scanning for the ports pattern: `prevWord` tracks whether
the previous character is a word character (for the leading `\b`; the `p`
of `port` is a word character, so the boundary holds iff the previous
character is not one).  Emits `m.group(1)` for each match. -/
def portsScan : Nat → Bool → Str → List Str
  | 0, _, _ => []
  | _ + 1, _, [] => []
  | fuel + 1, prevWord, c :: cs =>
    match (if prevWord then none else tryPort (c :: cs)) with
    | some (grp, rest) => grp :: portsScan fuel true rest
    | none => portsScan fuel (isWordChar c) cs

/-- Embedding of `[m.group(1) for m in rx.finditer(text)]` for the ports pattern. -/
def portsFindall (text : Str) : List Str := portsScan (text.length + 1) false text

/-- Decimal digits to a number. -/
def digitsToNat (l : Str) : Nat :=
  l.foldl (fun acc c => acc * 10 + (c.toNat - '0'.toNat)) 0

/-- Python `int()` on a string, restricted to the decimal-digit strings the
ports pattern captures: succeeds exactly on non-empty all-digit input
(anything else would raise `ValueError`). -/
def pyIntParse (l : Str) : Option Nat :=
  if l ≠ [] && l.all isDigitChar then some (digitsToNat l) else none

/-- Embedding of `int(v)` applied to every captured group (a failure anywhere aborts the
whole extraction, as an exception would). -/
def parsePorts : List Str → Option (List Nat)
  | [] => some []
  | v :: rest =>
    match pyIntParse v, parsePorts rest with
    | some n, some ns => some (n :: ns)
    | _, _ => none

/-! ### IOC extraction (`extract_iocs`, ingestion_process.py lines 170-197) -/

/-- Deduplication keeping the first occurrence — the set of distinct
values, in a canonical order that a subsequent sort makes irrelevant. -/
def dedupStrAux : List Str → List Str → List Str
  | _, [] => []
  | seen, x :: rest =>
    if x ∈ seen then dedupStrAux seen rest
    else x :: dedupStrAux (x :: seen) rest

/-- Distinct values of a list (Python `set(...)` contents). -/
def dedupStr (l : List Str) : List Str := dedupStrAux [] l

/-- Python string comparison: lexicographic on code points. -/
def strLe : Str → Str → Bool
  | [], _ => true
  | _ :: _, [] => false
  | a :: as, b :: bs => if a = b then strLe as bs else decide (a.toNat < b.toNat)

/-- Insertion into an ascending list. -/
def insertStr (x : Str) : List Str → List Str
  | [] => [x]
  | y :: ys => if strLe x y then x :: y :: ys else y :: insertStr x ys

/-- Embedding of `sorted(...)` on string values: on the distinct values produced by the
set comprehensions this yields the unique ascending enumeration. -/
def sortStr : List Str → List Str
  | [] => []
  | x :: xs => insertStr x (sortStr xs)

/-- ASCII `str.lower()`. -/
def pyLowerStr (l : Str) : Str := l.map toLowerAscii

/-- The `ports` branch of the extraction loop (lines 179 and 191-192):
parse every captured group, keep values in `(0, 65535]`, re-render as
decimal (`str(int(v))`), deduplicate and sort. -/
def portsStep (text : Str) : Option (List Str) :=
  match parsePorts (portsFindall text) with
  | some ns =>
    some (sortStr (dedupStr ((ns.filter (fun n => 0 < n && n ≤ 65535)).map
      (fun n => Nat.toDigits 10 n))))
  | none => none

/-- The insertion-ordered keys of `IOC_PATTERNS`. -/
def IOC_KEYS : List String :=
  ["cves", "tids", "ipv4", "ipv6", "hashes", "emails", "urls", "domains",
   "paths", "ports"]

/-- Embedding of `rx.findall(text)` for each non-ports pattern (none of these patterns
has a capturing group, so `findall` returns full-match strings and the
tuple branch at lines 182-183 never fires). -/
def iocFindall (key : String) (text : Str) : List Str :=
  if key = "cves" then findAll true text cvesRE
  else if key = "tids" then findAll true text tidsRE
  else if key = "ipv4" then findAll false text ipv4RE
  else if key = "ipv6" then findAll true text ipv6RE
  else if key = "hashes" then findAll true text hashesRE
  else if key = "emails" then findAll true text emailsRE
  else if key = "urls" then findAll true text urlsRE
  else if key = "domains" then findAll false text domainsRE
  else if key = "paths" then findAll false text pathsRE
  else []

/-- One iteration of the extraction loop (lines 177-192): match, normalize
per type, deduplicate via a set, then `md[key] = sorted(vals)`. -/
def extractStep (text : Str) (key : String) : Option (String × List Str) :=
  if key = "ports" then
    match portsStep text with
    | some l => some (key, l)
    | none => none
  else
    let vals := iocFindall key text
    if key = "ipv4" || key = "ipv6" then
      some (key, sortStr (dedupStr (vals.map (fun v => pyLowerStr (pyStrip v)))))
    else
      some (key, sortStr (dedupStr (vals.map pyStrip)))

/-- The extraction loop over the pattern keys in insertion order, building
the metadata dict entry by entry. -/
def extractLoop (text : Str) : List String → Option (List (String × List Str))
  | [] => some []
  | key :: rest =>
    match extractStep text key, extractLoop text rest with
    | some p, some ps => some (p :: ps)
    | _, _ => none

/-- In-place value update of an existing dict key. -/
def assocUpdate (md : List (String × List Str)) (key : String)
    (f : List Str → List Str) : List (String × List Str) :=
  md.map (fun kv => if kv.1 = key then (kv.1, f kv.2) else kv)

/-- Embedding of `extract_iocs(raw_text)` (lines 170-197).  The final statements
`md["ipv4"] = list(set(md["ipv4"]))` and `md["ipv6"] = list(set(md["ipv6"]))`
re-materialize those two lists from a Python `set`, whose enumeration
order is implementation-defined (hash-dependent); that order is modelled
by the explicit `reorder` parameter, which any actual run instantiates
with some permutation of the distinct elements (`ValidSetOrder`). -/
def extract_iocs (reorder : List Str → List Str) (raw : Str) :
    Option (List (String × List Str)) :=
  let text := deobfuscate raw
  match extractLoop text IOC_KEYS with
  | some md =>
    some (assocUpdate (assocUpdate md "ipv4" (fun l => reorder (dedupStr l)))
      "ipv6" (fun l => reorder (dedupStr l)))
  | none => none

/-- A possible `set` enumeration order: any function that permutes the
distinct elements it is given. -/
def ValidSetOrder (reorder : List Str → List Str) : Prop :=
  ∀ l : List Str, l.Nodup → (reorder l).Perm l

/-- Reversal is one possible set enumeration order. -/
theorem validSetOrder_reverse : ValidSetOrder List.reverse :=
  fun l _ => List.reverse_perm l

/-- Sorted-ascending test for string lists (Python's guarantee for the
output of `sorted`). -/
def strSortedB : List Str → Bool
  | [] => true
  | [_] => true
  | a :: b :: r => strLe a b && strSortedB (b :: r)

/-! ### Extraction lemmas -/

theorem mem_insertStr (x v : Str) : ∀ (l : List Str),
    x ∈ insertStr v l ↔ x = v ∨ x ∈ l := by
  intro l
  induction l with
  | nil => simp [insertStr]
  | cons y ys ih =>
    show x ∈ (if strLe v y then v :: y :: ys else y :: insertStr v ys) ↔ _
    by_cases hv : strLe v y
    · rw [if_pos hv]; simp
    · rw [if_neg hv]
      simp [ih]
      tauto

theorem mem_sortStr (x : Str) : ∀ (l : List Str), x ∈ sortStr l ↔ x ∈ l := by
  intro l
  induction l with
  | nil => simp [sortStr]
  | cons v vs ih =>
    show x ∈ insertStr v (sortStr vs) ↔ _
    rw [mem_insertStr, ih]
    simp

theorem mem_dedupStrAux : ∀ (l seen : List Str) (x : Str),
    x ∈ dedupStrAux seen l ↔ x ∈ l ∧ x ∉ seen := by
  intro l
  induction l with
  | nil => intro seen x; simp [dedupStrAux]
  | cons r rest ih =>
    intro seen x
    show x ∈ (if r ∈ seen then dedupStrAux seen rest
      else r :: dedupStrAux (r :: seen) rest) ↔ _
    by_cases hr : r ∈ seen
    · rw [if_pos hr, ih]
      constructor
      · intro ⟨h1, h2⟩; exact ⟨List.mem_cons_of_mem r h1, h2⟩
      · intro ⟨h1, h2⟩
        rcases List.mem_cons.mp h1 with rfl | h3
        · exact absurd hr h2
        · exact ⟨h3, h2⟩
    · rw [if_neg hr]
      constructor
      · intro h
        rcases List.mem_cons.mp h with rfl | h2
        · exact ⟨List.mem_cons_self _ _, hr⟩
        · have := (ih (r :: seen) x).mp h2
          exact ⟨List.mem_cons_of_mem r this.1,
            fun hc => this.2 (List.mem_cons_of_mem r hc)⟩
      · intro ⟨h1, h2⟩
        rcases List.mem_cons.mp h1 with rfl | h3
        · exact List.mem_cons_self _ _
        · by_cases hxr : x = r
          · subst hxr; exact List.mem_cons_self _ _
          · refine List.mem_cons_of_mem _ ((ih (r :: seen) x).mpr ⟨h3, ?_⟩)
            intro hc
            rcases List.mem_cons.mp hc with h4 | h4
            · exact hxr h4
            · exact h2 h4

theorem mem_dedupStr (l : List Str) (x : Str) : x ∈ dedupStr l ↔ x ∈ l := by
  rw [dedupStr, mem_dedupStrAux]
  simp

theorem tryDigitsK_digits (l : Str) : ∀ (k : Nat) (g rest : Str),
    tryDigitsK l k = some (g, rest) → g ≠ [] ∧ g.all isDigitChar := by
  intro k
  induction k with
  | zero => intro g rest h; cases h
  | succ j ih =>
    intro g rest h
    have h2 : (if (l.take (j + 1)).length = j + 1
        && (l.take (j + 1)).all isDigitChar
        && wbAfterDigits (l.drop (j + 1)) then
        some (l.take (j + 1), l.drop (j + 1))
      else tryDigitsK l j) = some (g, rest) := h
    by_cases hc : ((l.take (j + 1)).length = j + 1
        && (l.take (j + 1)).all isDigitChar
        && wbAfterDigits (l.drop (j + 1))) = true
    · rw [if_pos hc] at h2
      cases h2
      have hconj := Bool.and_eq_true_iff.mp hc
      have hconj2 := Bool.and_eq_true_iff.mp hconj.1
      refine ⟨?_, hconj2.2⟩
      intro hnil
      have hlen : (l.take (j + 1)).length = j + 1 := by simpa using hconj2.1
      rw [hnil] at hlen
      cases hlen
    · rw [if_neg hc] at h2
      exact ih g rest h2

theorem tryPort_digits : ∀ (l g rest : Str),
    tryPort l = some (g, rest) → g ≠ [] ∧ g.all isDigitChar := by
  intro l g rest h
  match l with
  | [] => cases h
  | [a] => cases h
  | [a, b] => cases h
  | [a, b, c] => cases h
  | [a, b, c, d] =>
    have h2 : (if toLowerAscii a = 'p' && toLowerAscii b = 'o'
        && toLowerAscii c = 'r' && toLowerAscii d = 't' then
        (none : Option (Str × Str))
      else none) = some (g, rest) := h
    rw [ite_self] at h2
    cases h2
  | a :: b :: c :: d :: e :: rest2 =>
    have h2 : (if toLowerAscii a = 'p' && toLowerAscii b = 'o'
        && toLowerAscii c = 'r' && toLowerAscii d = 't' then
        (if pyIsSpace e then tryDigitsK rest2 5 else tryDigitsK (e :: rest2) 5)
      else none) = some (g, rest) := h
    by_cases hc : (toLowerAscii a = 'p' && toLowerAscii b = 'o'
        && toLowerAscii c = 'r' && toLowerAscii d = 't') = true
    · rw [if_pos hc] at h2
      by_cases hsp : pyIsSpace e = true
      · rw [if_pos hsp] at h2
        exact tryDigitsK_digits rest2 5 g rest h2
      · rw [if_neg hsp] at h2
        exact tryDigitsK_digits (e :: rest2) 5 g rest h2
    · rw [if_neg hc] at h2
      cases h2

theorem portsScan_digits : ∀ (fuel : Nat) (prev : Bool) (t : Str) (g : Str),
    g ∈ portsScan fuel prev t → g ≠ [] ∧ g.all isDigitChar := by
  intro fuel
  induction fuel with
  | zero => intro prev t g h; cases h
  | succ f ih =>
    intro prev t g h
    cases t with
    | nil => cases h
    | cons c cs =>
      have h2 : g ∈ (match (if prev then none else tryPort (c :: cs)) with
        | some (grp, rest) => grp :: portsScan f true rest
        | none => portsScan f (isWordChar c) cs) := h
      rcases htp : (if prev then none else tryPort (c :: cs)) with _ | ⟨grp, rest⟩
      · rw [htp] at h2
        exact ih _ _ g h2
      · rw [htp] at h2
        rcases List.mem_cons.mp h2 with rfl | h3
        · cases prev with
          | true => cases htp
          | false => exact tryPort_digits (c :: cs) g rest htp
        · exact ih _ _ g h3

theorem parsePorts_total : ∀ (vals : List Str),
    (∀ v ∈ vals, v ≠ [] ∧ v.all isDigitChar) →
    ∃ ns, parsePorts vals = some ns := by
  intro vals
  induction vals with
  | nil => intro _; exact ⟨[], rfl⟩
  | cons v rest ih =>
    intro hall
    have hv := hall v (by simp)
    have hparse : pyIntParse v = some (digitsToNat v) := by
      rw [pyIntParse, if_pos]
      rw [Bool.and_eq_true_iff]
      exact ⟨by simpa using hv.1, hv.2⟩
    rcases ih (fun x hx => hall x (by simp [hx])) with ⟨ns, hns⟩
    refine ⟨digitsToNat v :: ns, ?_⟩
    show (match pyIntParse v, parsePorts rest with
      | some n, some ns => some (n :: ns)
      | _, _ => none) = _
    rw [hparse, hns]

theorem portsStep_total (text : Str) : ∃ l, portsStep text = some l := by
  rcases parsePorts_total (portsFindall text)
      (fun v hv => portsScan_digits _ _ _ v hv) with ⟨ns, hns⟩
  refine ⟨sortStr (dedupStr ((ns.filter (fun n => 0 < n && n ≤ 65535)).map
    (fun n => Nat.toDigits 10 n))), ?_⟩
  show (match parsePorts (portsFindall text) with
    | some ns =>
      some (sortStr (dedupStr ((ns.filter (fun n => 0 < n && n ≤ 65535)).map
        (fun n => Nat.toDigits 10 n))))
    | none => none) = _
  rw [hns]

theorem extractStep_key (text : Str) (key : String) (p : String × List Str)
    (h : extractStep text key = some p) : p.1 = key := by
  by_cases hp : key = "ports"
  · have h2 : (match portsStep text with
      | some l => some (key, l)
      | none => none) = some p := by
      rw [← h]
      show _ = (if key = "ports" then _ else _)
      rw [if_pos hp]
    rcases hq : portsStep text with _ | l
    · rw [hq] at h2; cases h2
    · rw [hq] at h2; cases h2; rfl
  · have h2 : (if key = "ipv4" || key = "ipv6" then
        some (key, sortStr (dedupStr ((iocFindall key text).map
          (fun v => pyLowerStr (pyStrip v)))))
      else
        some (key, sortStr (dedupStr ((iocFindall key text).map pyStrip))))
        = some p := by
      rw [← h]
      show _ = (if key = "ports" then _ else _)
      rw [if_neg hp]
  -- both branches produce a pair with first component `key`
    by_cases h46 : (key = "ipv4" || key = "ipv6") = true
    · rw [if_pos h46] at h2; cases h2; rfl
    · rw [if_neg h46] at h2; cases h2; rfl

theorem extractStep_total (text : Str) (key : String) :
    ∃ p, extractStep text key = some p := by
  by_cases hp : key = "ports"
  · subst hp
    rcases portsStep_total text with ⟨l, hl⟩
    refine ⟨("ports", l), ?_⟩
    have hstep : extractStep text "ports" = (match portsStep text with
      | some l => some (("ports" : String), l)
      | none => none) := rfl
    rw [hstep, hl]
  · refine ⟨?_, ?_⟩
    case _ => exact if (key = "ipv4" || key = "ipv6") then
        (key, sortStr (dedupStr ((iocFindall key text).map
          (fun v => pyLowerStr (pyStrip v)))))
      else (key, sortStr (dedupStr ((iocFindall key text).map pyStrip)))
    show (if key = "ports" then _ else
        (if key = "ipv4" || key = "ipv6" then
          some (key, sortStr (dedupStr ((iocFindall key text).map
            (fun v => pyLowerStr (pyStrip v)))))
        else
          some (key, sortStr (dedupStr ((iocFindall key text).map pyStrip)))))
      = _
    rw [if_neg hp]
    by_cases h46 : (key = "ipv4" || key = "ipv6") = true
    · rw [if_pos h46, if_pos h46]
    · rw [if_neg h46, if_neg h46]

theorem extractLoop_total : ∀ (keys : List String) (text : Str),
    ∃ md, extractLoop text keys = some md := by
  intro keys
  induction keys with
  | nil => intro text; exact ⟨[], rfl⟩
  | cons k rest ih =>
    intro text
    rcases extractStep_total text k with ⟨p, hp⟩
    rcases ih text with ⟨ps, hps⟩
    refine ⟨p :: ps, ?_⟩
    show (match extractStep text k, extractLoop text rest with
      | some p, some ps => some (p :: ps)
      | _, _ => none) = _
    rw [hp, hps]

theorem extractLoop_alookup : ∀ (keys : List String) (text : Str)
    (md0 : List (String × List Str)) (key : String),
    extractLoop text keys = some md0 → key ∈ keys →
    ∃ v, extractStep text key = some (key, v) ∧ alookup md0 key = some v := by
  intro keys
  induction keys with
  | nil => intro text md0 key _ hmem; cases hmem
  | cons k rest ih =>
    intro text md0 key h hmem
    have h2 : (match extractStep text k, extractLoop text rest with
      | some p, some ps => some (p :: ps)
      | _, _ => none) = some md0 := h
    rcases hs : extractStep text k with _ | p
    · rw [hs] at h2; cases h2
    · rcases hl : extractLoop text rest with _ | ps
      · rw [hs, hl] at h2; cases h2
      · rw [hs, hl] at h2
        cases h2
        have hk : p.1 = k := extractStep_key text k p hs
        by_cases hkey : key = k
        · subst hkey
          refine ⟨p.2, ?_, ?_⟩
          · rw [← hk] at hs ⊢
            rcases p with ⟨p1, p2⟩
            exact hs
          · show (if key = p.1 then some p.2 else alookup ps key) = some p.2
            rw [if_pos (by rw [hk]; )]
        · rcases List.mem_cons.mp hmem with hc | hmem2
          · exact absurd hc hkey
          · rcases ih text ps key hl hmem2 with ⟨v, hv1, hv2⟩
            refine ⟨v, hv1, ?_⟩
            show (if key = p.1 then some p.2 else alookup ps key) = some v
            rw [if_neg (by rw [hk]; exact hkey), hv2]

theorem alookup_assocUpdate_ne : ∀ (md : List (String × List Str))
    (key2 : String) (f : List Str → List Str) (key : String), key ≠ key2 →
    alookup (assocUpdate md key2 f) key = alookup md key := by
  intro md
  induction md with
  | nil => intro key2 f key _; rfl
  | cons kv rest ih =>
    intro key2 f key hne
    show alookup ((if kv.1 = key2 then (kv.1, f kv.2) else kv) ::
      assocUpdate rest key2 f) key = _
    by_cases hk : kv.1 = key2
    · rw [if_pos hk]
      show (if key = kv.1 then some (f kv.2) else
        alookup (assocUpdate rest key2 f) key) = _
      have hne2 : ¬key = kv.1 := fun hc => hne (hc.trans hk)
      rw [if_neg hne2, ih key2 f key hne]
      show _ = (if key = kv.1 then some kv.2 else alookup rest key)
      rw [if_neg hne2]
    · rw [if_neg hk]
      show (if key = kv.1 then some kv.2 else
        alookup (assocUpdate rest key2 f) key) = _
      by_cases hkk : key = kv.1
      · rw [if_pos hkk]
        show _ = (if key = kv.1 then some kv.2 else alookup rest key)
        rw [if_pos hkk]
      · rw [if_neg hkk, ih key2 f key hne]
        show _ = (if key = kv.1 then some kv.2 else alookup rest key)
        rw [if_neg hkk]

theorem extract_iocs_ports (reorder : List Str → List Str) (raw : Str)
    (md : List (String × List Str)) (h : extract_iocs reorder raw = some md) :
    ∃ l, portsStep (deobfuscate raw) = some l ∧ alookup md "ports" = some l := by
  have h2 : (match extractLoop (deobfuscate raw) IOC_KEYS with
    | some md0 =>
      some (assocUpdate (assocUpdate md0 "ipv4" (fun l => reorder (dedupStr l)))
        "ipv6" (fun l => reorder (dedupStr l)))
    | none => none) = some md := h
  rcases hl : extractLoop (deobfuscate raw) IOC_KEYS with _ | md0
  · rw [hl] at h2; cases h2
  · rw [hl] at h2
    have hmd := Option.some.inj h2
    rcases extractLoop_alookup IOC_KEYS (deobfuscate raw) md0 "ports" hl
      (by decide) with ⟨v, hstep, halo⟩
    have h3 : (match portsStep (deobfuscate raw) with
      | some l => some (("ports" : String), l)
      | none => none) = some ("ports", v) := hstep
    have hps : portsStep (deobfuscate raw) = some v := by
      rcases hq : portsStep (deobfuscate raw) with _ | l
      · rw [hq] at h3; cases h3
      · rw [hq] at h3
        have hinj := Option.some.inj h3
        have hlv : l = v := congrArg Prod.snd hinj
        rw [← hlv]
    refine ⟨v, hps, ?_⟩
    rw [← hmd]
    rw [alookup_assocUpdate_ne _ _ _ _ (by decide),
      alookup_assocUpdate_ne _ _ _ _ (by decide)]
    exact halo

/-- C9: `extract_iocs` is total: on every input (and every possible
set-enumeration order) it returns an indicator dictionary rather than
failing — the only fallible step, `int(v)` on a captured port group,
always succeeds because the ports pattern captures only non-empty digit
runs. -/
theorem C9_extract_total (reorder : List Str → List Str) (raw : Str) :
    ∃ md, extract_iocs reorder raw = some md := by
  rcases extractLoop_total IOC_KEYS (deobfuscate raw) with ⟨md0, h0⟩
  refine ⟨assocUpdate (assocUpdate md0 "ipv4" (fun l => reorder (dedupStr l)))
    "ipv6" (fun l => reorder (dedupStr l)), ?_⟩
  show (match extractLoop (deobfuscate raw) IOC_KEYS with
    | some md0 =>
      some (assocUpdate (assocUpdate md0 "ipv4" (fun l => reorder (dedupStr l)))
        "ipv6" (fun l => reorder (dedupStr l)))
    | none => none) = _
  rw [h0]

theorem extractLoop_keys : ∀ (keys : List String) (text : Str)
    (md0 : List (String × List Str)),
    extractLoop text keys = some md0 → md0.map Prod.fst = keys := by
  intro keys
  induction keys with
  | nil => intro text md0 h; cases h; rfl
  | cons k rest ih =>
    intro text md0 h
    have h2 : (match extractStep text k, extractLoop text rest with
      | some p, some ps => some (p :: ps)
      | _, _ => none) = some md0 := h
    rcases hs : extractStep text k with _ | p
    · rw [hs] at h2; cases h2
    · rcases hl : extractLoop text rest with _ | ps
      · rw [hs, hl] at h2; cases h2
      · rw [hs, hl] at h2
        cases h2
        show p.1 :: ps.map Prod.fst = k :: rest
        rw [extractStep_key text k p hs, ih text ps hl]

theorem assocUpdate_keys (md : List (String × List Str)) (key : String)
    (f : List Str → List Str) :
    (assocUpdate md key f).map Prod.fst = md.map Prod.fst := by
  induction md with
  | nil => rfl
  | cons kv rest ih =>
    show ((if kv.1 = key then (kv.1, f kv.2) else kv) ::
      assocUpdate rest key f).map Prod.fst = _
    by_cases hk : kv.1 = key
    · rw [if_pos hk]
      show kv.1 :: (assocUpdate rest key f).map Prod.fst = _
      rw [ih]
      rfl
    · rw [if_neg hk]
      show kv.1 :: (assocUpdate rest key f).map Prod.fst = _
      rw [ih]
      rfl

/-- C10: For every input (and every set-enumeration order), the
dictionary returned by `extract_iocs` has exactly the ten keys of
`IOC_PATTERNS`, in insertion order, each mapping to a list of strings. -/
theorem C10_extract_keys (reorder : List Str → List Str) (raw : Str)
    (md : List (String × List Str)) (h : extract_iocs reorder raw = some md) :
    md.map Prod.fst = IOC_KEYS := by
  have h2 : (match extractLoop (deobfuscate raw) IOC_KEYS with
    | some md0 =>
      some (assocUpdate (assocUpdate md0 "ipv4" (fun l => reorder (dedupStr l)))
        "ipv6" (fun l => reorder (dedupStr l)))
    | none => none) = some md := h
  rcases hl : extractLoop (deobfuscate raw) IOC_KEYS with _ | md0
  · rw [hl] at h2; cases h2
  · rw [hl] at h2
    cases h2
    rw [assocUpdate_keys, assocUpdate_keys]
    exact extractLoop_keys IOC_KEYS (deobfuscate raw) md0 hl

/-- Witness for C10 at the empty input. -/
theorem C10_witness :
    ((extract_iocs id ([] : Str)).getD []).map Prod.fst = IOC_KEYS :=
  C10_extract_keys id [] ((extract_iocs id []).getD []) (by rfl)

/-- C6: Every value in the `ports` list of `extract_iocs` output is
the decimal rendering of an integer in `[1, 65535]`; concretely, the text
`"port 70000"` contributes no port entry while `"port 8080"` yields the
entry `"8080"`. -/
theorem C6_port_bounds :
    (∀ (reorder : List Str → List Str) (raw : Str)
      (md : List (String × List Str)) (ports : List Str),
      extract_iocs reorder raw = some md →
      alookup md "ports" = some ports →
      ∀ v ∈ ports, ∃ n, 1 ≤ n ∧ n ≤ 65535 ∧ v = Nat.toDigits 10 n)
    ∧ alookup ((extract_iocs id ("port 70000".toList)).getD []) "ports"
        = some []
    ∧ alookup ((extract_iocs id ("port 8080".toList)).getD []) "ports"
        = some ["8080".toList] := by
  refine ⟨?_, by decide, by decide⟩
  intro reorder raw md ports hmd halo
  rcases extract_iocs_ports reorder raw md hmd with ⟨l, hps, halo2⟩
  have hpl : ports = l := by
    rw [halo] at halo2
    exact Option.some.inj halo2
  rw [hpl]
  have h3 : (match parsePorts (portsFindall (deobfuscate raw)) with
    | some ns =>
      some (sortStr (dedupStr ((ns.filter (fun n => 0 < n && n ≤ 65535)).map
        (fun n => Nat.toDigits 10 n))))
    | none => none) = some l := hps
  rcases hpp : parsePorts (portsFindall (deobfuscate raw)) with _ | ns
  · rw [hpp] at h3; cases h3
  · rw [hpp] at h3
    have hl := Option.some.inj h3
    intro v hv
    rw [← hl] at hv
    rw [mem_sortStr, mem_dedupStr] at hv
    rcases List.mem_map.mp hv with ⟨n, hn, hvn⟩
    rcases List.mem_filter.mp hn with ⟨_, hcond⟩
    have hcond2 := Bool.and_eq_true_iff.mp hcond
    refine ⟨n, ?_, by simpa using hcond2.2, hvn.symm⟩
    have : 0 < n := by simpa using hcond2.1
    omega

/-- Witness for C6 at a concrete extraction. -/
theorem C6_witness :
    ∃ n, 1 ≤ n ∧ n ≤ 65535 ∧ ("8080".toList) = Nat.toDigits 10 n :=
  C6_port_bounds.1 id ("port 8080".toList)
    ((extract_iocs id ("port 8080".toList)).getD [])
    ["8080".toList] (by rfl) (by decide) ("8080".toList) (by decide)

/-- C3 (code bug): The final statements
`md["ipv4"] = list(set(md["ipv4"]))` / `md["ipv6"] = list(set(md["ipv6"]))`
(lines 195-196, commented "redundant check but safe") re-materialize the
already-sorted lists in the implementation-defined enumeration order of a
Python `set`.  Under the legitimate enumeration order that reverses the
distinct elements (`validSetOrder_reverse`), an input with two IPv4
addresses produces an `ipv4` list that is *not* sorted lexicographically,
so the sortedness/byte-stability guarantee does not hold for the code as
written. -/
theorem C3_ipv4_order_not_sorted :
    alookup ((extract_iocs List.reverse ("1.1.1.1 2.2.2.2".toList)).getD [])
        "ipv4" = some ["2.2.2.2".toList, "1.1.1.1".toList]
    ∧ strSortedB ["2.2.2.2".toList, "1.1.1.1".toList] = false := by
  exact ⟨by decide, by decide⟩

/-- Witness for C9 at a concrete input. -/
theorem C9_witness : ∃ md, extract_iocs id ([] : Str) = some md :=
  C9_extract_total id []
